import Mathlib

/-!
Verification of the schema engine and tool execution loop of a
tool-calling LLM library.

The Python sources embedded here:
  * `src/llm_core/tools/schema_validator.py` — `SchemaValidator.sanitize_schema`
    and `SchemaValidator.assert_no_recursive_refs` (the same code is duplicated
    verbatim as `ToolRegistry._sanitize_schema` / `_assert_no_recursive_refs`
    in `src/llm_core/tools/registry.py`);
  * `src/llm_core/registry.py` — `ToolRegistry._resolve_schema_refs`;
  * `src/generic_llm_lib/llm_core/tools/schema/tool_param_factory.py` and
    `src/generic_llm_lib/llm_core/tools/registry/base.py` — parameter
    introspection and registration;
  * `src/llm_core/tools/tool_loop.py` — `ToolExecutionLoop`.

Modelling conventions.  Python JSON-like values are the nested inductive
`Json`; a Python `dict` is an insertion-ordered association list (Python
dicts cannot hold a key twice, and all operations below agree with Python's
on duplicate-free lists).  Python functions that recurse on the tree are
embedded with an explicit fuel argument counting recursion depth: Python's
own call stack is finite, every recursion here is reducible (all fuel
arguments are structural), and a result `some y` produced at any fuel is
the function's value (fuel-monotonicity is proved where a theorem needs
it).  A `none` result models a raised exception or exhausted fuel.
Exceptions raised and caught inside the code are modelled as `Option` /
`Except` values.
-/

/-- A JSON-like Python value: `None`, `bool`, `int`, `str`, `list`, `dict`.
Floats do not occur in the schema code paths modelled here. -/
inductive Json where
  | null : Json
  | bool (b : Bool) : Json
  | num (n : Int) : Json
  | str (s : String) : Json
  | arr (xs : List Json) : Json
  | obj (fs : List (String × Json)) : Json

/-- Entry list of a Python dict (insertion order, no duplicate keys in any
value produced by the embedded code). -/
abbrev JEntries := List (String × Json)

/-- `d[k]` / `d.get(k)`: the value at the first entry with key `k`. -/
def getEntry (k : String) : JEntries → Option Json
  | [] => none
  | (k', v) :: t => if k' = k then some v else getEntry k t

/-- `k in d`. -/
def hasKey (k : String) (fs : JEntries) : Bool :=
  (getEntry k fs).isSome

/-- `d[k] = v`: replace the value in place when the key exists (Python keeps
the entry's position), else append a new entry. -/
def setKey (k : String) (v : Json) (fs : JEntries) : JEntries :=
  if hasKey k fs then fs.map (fun e => if e.1 = k then (k, v) else e)
  else fs ++ [(k, v)]

/-- `d[k] = v` on an object node. -/
def jsetKey (k : String) (v : Json) : Json → Json
  | .obj fs => .obj (setKey k v fs)
  | j => j

/-- The keys `sanitize_schema` pops at every node:
`["$defs", "$schema", "$id", "title", "definitions"]`. -/
def metadataKeys : List String :=
  ["$defs", "$schema", "$id", "title", "definitions"]

/-- The successive `new_schema.pop(key, None)` calls of `sanitize_schema`
step 1. -/
def popMeta (fs : JEntries) : JEntries :=
  fs.filter (fun e => !(metadataKeys.contains e.1))

/-- `isinstance(x, dict)`. -/
def isObjB : Json → Bool
  | .obj _ => true
  | _ => false

/-- `x.get("type") == "null"` for a dict node (`False` for any non-dict,
where the comparison cannot even be reached). -/
def typeIsNullB : Json → Bool
  | .obj fs =>
      match getEntry "type" fs with
      | some (.str s) => s == "null"
      | _ => false
  | _ => false

/-- Python `v == <literal string satisfying p>` for a JSON value `v`:
only a `str` can compare equal to a string literal. -/
def strClass (p : String → Bool) : Json → Bool
  | .str s => p s
  | _ => false

/-- The string test of `x.get("type") != "null"`. -/
def isNullStr (s : String) : Bool := s == "null"

/-- The string test of `new_schema.get("type") == "object"`. -/
def isObjectStr (s : String) : Bool := s == "object"

/-- The iteration `[x for x in any_of if x.get("type") != "null"]` requires
every iterated element to be a dict (`x.get` raises `AttributeError`
otherwise).  Iterating a non-empty string yields characters and a non-empty
dict yields key strings, which also raise; empty iterables yield `[]`;
non-iterables raise `TypeError`.  `none` models the raised exception. -/
def iterAnyOf : Json → Option (List Json)
  | .arr xs => if xs.all isObjB then some xs else none
  | .str s => if s = "" then some [] else none
  | .obj fs => if fs.isEmpty then some [] else none
  | .null => none
  | .bool _ => none
  | .num _ => none

/-- Sequential effectful map over a list, stopping at the first failure —
the semantics of a Python `for` loop or comprehension whose body may
raise. -/
def mapMO {α β : Type} (g : α → Option β) : List α → Option (List β)
  | [] => some []
  | a :: t =>
      match g a with
      | none => none
      | some b => (mapMO g t).map (b :: ·)

/-- One list element of the recursion loop of `sanitize_schema`:
`sanitize_schema(item) if isinstance(item, dict) else item`. -/
def sanListItem (san : Json → Option Json) (x : Json) : Option Json :=
  match x with
  | .obj _ => san x
  | _ => some x

/-- One value of the recursion loop of `sanitize_schema`: dicts are
sanitized, lists are rebuilt with their dict items sanitized, everything
else is kept. -/
def sanVal (san : Json → Option Json) (v : Json) : Option Json :=
  match v with
  | .obj _ => san v
  | .arr items => (mapMO (sanListItem san) items).map Json.arr
  | _ => some v

/-- The final `for key, value in new_schema.items()` loop of
`sanitize_schema` (in-place assignment keeps entry order). -/
def sanEntries (san : Json → Option Json) (fs : JEntries) : Option JEntries :=
  mapMO (fun e => (sanVal san e.2).map (fun w => (e.1, w))) fs

/-- `new_schema.get("type") == "object"`. -/
def typeIsObjectB (ns : JEntries) : Bool :=
  match getEntry "type" ns with
  | some (.str s) => s == "object"
  | _ => false

/-- Step 3 of `sanitize_schema`: when the node's `type` is `"object"` and
`additionalProperties` is absent, append `additionalProperties: false`. -/
def closeObject (ns : JEntries) : JEntries :=
  if typeIsObjectB ns then
    if hasKey "additionalProperties" ns then ns
    else ns ++ [("additionalProperties", .bool false)]
  else ns

/-- Steps 3 (closed-object enforcement) and the recursion loop of
`sanitize_schema`, applied to the already-popped entry list. -/
def sanitizeRest (san : Json → Option Json) (ns : JEntries) : Option Json :=
  (sanEntries san (closeObject ns)).map Json.obj

/-- Step 2 of `sanitize_schema`: the merge of the single non-null branch
with the enclosing node's description (`merged`). -/
def mergeBranch (ns : JEntries) (simplified : Json) : Json :=
  match getEntry "description" ns with
  | some d => jsetKey "description" d simplified
  | none => simplified

/-- The body of `sanitize_schema` on a dict node, parameterised by the
recursive callee `san` (the source's recursive calls, one level deeper). -/
def sanitizeObj (san : Json → Option Json) (fs : JEntries) : Option Json :=
  match getEntry "anyOf" (popMeta fs) with
  | some v =>
      match iterAnyOf v with
      | none => none
      | some xs =>
          match xs.filter (fun x => !typeIsNullB x) with
          | [simplified] => san (mergeBranch (popMeta fs) simplified)
          | _ => sanitizeRest san (popMeta fs)
  | none => sanitizeRest san (popMeta fs)

/-- `SchemaValidator.sanitize_schema` (`schema_validator.py`, lines 60-118;
identical code at `registry.py` lines 189-237), with fuel counting
recursion depth.  Non-dicts are returned unchanged; metadata keys are
popped; a union `anyOf` with exactly one branch whose `type` is not
`"null"` is collapsed to that branch, the enclosing node's `description`
(when present) overwriting the branch's, and the merge re-sanitized;
otherwise objects get `additionalProperties: false` when the key is absent
and the loop recurses into dict values and into dict items of list
values. -/
def sanitize_schema : Nat → Json → Option Json
  | 0, _ => none
  | f + 1, .obj fs => sanitizeObj (sanitize_schema f) fs
  | _ + 1, j => some j

/-- The value of Python's `sanitize_schema(x)`: the result at any
sufficient recursion depth (the recursion of the source is bounded by the
tree size, so the partial results stabilise; `sanitize_mono` below shows a
`some` result never changes as fuel grows). -/
def SanitizeTo (x y : Json) : Prop :=
  ∃ f, sanitize_schema f x = some y

/-- Python `==` on JSON-like values as the sanitizer's tests use it: dicts
compare as unordered key-value mappings, lists elementwise in order,
leaves by value. -/
inductive PyEq : Json → Json → Prop where
  | null : PyEq .null .null
  | bool : ∀ b, PyEq (.bool b) (.bool b)
  | num : ∀ n, PyEq (.num n) (.num n)
  | str : ∀ s, PyEq (.str s) (.str s)
  | arr : ∀ xs ys, List.Forall₂ PyEq xs ys → PyEq (.arr xs) (.arr ys)
  | obj : ∀ fs gs, (∀ k, hasKey k fs = hasKey k gs) →
      (∀ k v w, getEntry k fs = some v → getEntry k gs = some w → PyEq v w) →
      PyEq (.obj fs) (.obj gs)

/-- Trees in which no dict node carries both `"type": "null"` and an
`"anyOf"` key.  On this class the sanitizer is idempotent; outside it a
union whose branches are all null-typed can, after one pass, expose a
newly collapsible union (see the C1 counterexample). -/
inductive GoodSchema : Json → Prop where
  | null : GoodSchema .null
  | bool : ∀ b, GoodSchema (.bool b)
  | num : ∀ n, GoodSchema (.num n)
  | str : ∀ s, GoodSchema (.str s)
  | arr : ∀ xs, (∀ x ∈ xs, GoodSchema x) → GoodSchema (.arr xs)
  | obj : ∀ fs, (typeIsNullB (.obj fs) = false ∨ hasKey "anyOf" fs = false) →
      (∀ e ∈ fs, GoodSchema e.2) → GoodSchema (.obj fs)

/-- JSON Schema primitive type names (the "arbitrary primitive `T`" of the
spec). -/
def primitiveTypes : List String :=
  ["string", "integer", "number", "boolean"]

/-- C1 counterexample input: a union whose two branches both carry
`"type": "null"`, the first being itself a collapsible optional union. -/
def c1ExInput : Json :=
  .obj [("anyOf", .arr
    [ .obj [("type", .str "null"),
            ("anyOf", .arr [.obj [("type", .str "integer")],
                            .obj [("type", .str "null")]])],
      .obj [("type", .str "null")] ])]

/-- `sanitize_schema` applied once to `c1ExInput`. -/
def c1ExOnce : Json :=
  .obj [("anyOf", .arr [.obj [("type", .str "integer")],
                        .obj [("type", .str "null")]])]

/-- `sanitize_schema` applied twice to `c1ExInput`. -/
def c1ExTwice : Json :=
  .obj [("type", .str "integer")]

/-- A union node of one non-null primitive branch (with its own
description) plus a null branch, where the enclosing node carries its own
description. -/
def unionWithParentDesc (t db d : String) : Json :=
  .obj [("anyOf", .arr [.obj [("type", .str t), ("description", .str db)],
                        .obj [("type", .str "null")]]),
        ("description", .str d)]

/-- The same union node without a description on the enclosing node. -/
def unionNoParentDesc (t db : String) : Json :=
  .obj [("anyOf", .arr [.obj [("type", .str t), ("description", .str db)],
                        .obj [("type", .str "null")]])]

-- ===================================================================
-- Tool execution loop (`src/llm_core/tools/tool_loop.py`)
-- ===================================================================

/-- `ToolCallRequest.arguments` (`call_protocol.py`): opaque raw
arguments.  A non-`None`, non-`str`, non-`dict` value is handled by
`dict(raw_args)`, which either yields a mapping or raises `TypeError` /
`ValueError`; the `conv` field carries that outcome (`error` holds
`str(exc)`). -/
inductive RawArgs where
  | absent : RawArgs
  | str (s : String) : RawArgs
  | dict (d : List (String × Json)) : RawArgs
  | other (conv : Except String (List (String × Json))) : RawArgs

/-- `ToolCallRequest` (`call_protocol.py`). -/
structure ToolCallRequest where
  name : String
  arguments : RawArgs
  call_id : Option String

/-- The response payload of a `ToolCallResult`: exactly one of
`{"result": value}` or `{"error": message}`. -/
inductive ResponsePayload where
  | result (v : Json) : ResponsePayload
  | error (msg : String) : ResponsePayload

/-- `ToolCallResult` (`call_protocol.py`). -/
structure ToolCallResult where
  name : String
  response : ResponsePayload
  call_id : Option String

/-- The Python exception classes named in
`ToolExecutionLoop.RECOVERABLE_ERRORS` plus a stand-in for every other
exception class. -/
inductive ExcKind where
  | toolExecutionError : ExcKind
  | fileNotFoundError : ExcKind
  | fileExistsError : ExcKind
  | permissionError : ExcKind
  | isADirectoryError : ExcKind
  | notADirectoryError : ExcKind
  | valueError : ExcKind
  | typeError : ExcKind
  | otherException : ExcKind
deriving DecidableEq

/-- `ToolExecutionLoop.RECOVERABLE_ERRORS` (tool_loop.py lines 29-38). -/
def RECOVERABLE_ERRORS : List ExcKind :=
  [.toolExecutionError, .fileNotFoundError, .fileExistsError,
   .permissionError, .isADirectoryError, .notADirectoryError,
   .valueError, .typeError]

/-- The observable behaviour of one tool invocation under
`asyncio.wait_for`: a value within the timeout, an exception raised
within the timeout, or exceeding the per-call timeout
(`asyncio.TimeoutError`).  Timing is abstracted to the one bit the loop
can observe. -/
inductive ExecOutcome where
  | ok (v : Json) : ExecOutcome
  | exc (k : ExcKind) (msg : String) : ExecOutcome
  | timesOut : ExecOutcome

/-- A tool implementation, as the loop observes it: keyword arguments in,
classified outcome out.  Sync functions are wrapped in `asyncio.to_thread`
and async ones awaited — both reduce to this interface. -/
def ToolFunc : Type := List (String × Json) → ExecOutcome

/-- The fields of `ToolDefinition` (`models.py`) the execution loop
reads: the callable and the optional pydantic argument model
(`args_model(**args).model_dump()`, every exception caught). -/
structure LoopToolDef where
  func : ToolFunc
  args_model : Option (List (String × Json) →
    Except String (List (String × Json)))

/-- The loop's configuration: `str(self._tool_timeout)` as interpolated
into the timeout message, the argument-error formatter, and stdlib
`json.loads` (abstract; `error` carries `str(exc)` of the
`JSONDecodeError`). -/
structure LoopConfig where
  tool_timeout_repr : String
  argument_error_formatter : String → String → String
  json_loads : String → Except String Json

/-- `ToolExecutionLoop._default_argument_error`. -/
def default_argument_error (tool_name : String) (error : String) : String :=
  "Failed to parse arguments for tool '" ++ tool_name ++ "': " ++ error

/-- `self._registry.tools[name]` lookup (`None` registry or absent name
both yield `none`, the condition of tool_loop.py line 118). -/
def lookupTool (n : String) : List (String × LoopToolDef) → Option LoopToolDef
  | [] => none
  | (k, td) :: t => if k = n then some td else lookupTool n t

/-- `not self._registry or tool_call.name not in self._registry.tools`. -/
def regLookup (registry : Option (List (String × LoopToolDef)))
    (n : String) : Option LoopToolDef :=
  match registry with
  | none => none
  | some tools => lookupTool n tools

/-- `ToolExecutionLoop._normalize_function_args`.  `Except.error` is the
`ToolExecutionError` the caller catches (its message already formatted). -/
def normalize_function_args (cfg : LoopConfig) (tool_name : String) :
    RawArgs → Except String (List (String × Json))
  | .absent => .ok []
  | .str s =>
      if s = "" then .ok []
      else
        match cfg.json_loads s with
        | .error m => .error (cfg.argument_error_formatter tool_name m)
        | .ok .null => .ok []
        | .ok (.obj d) => .ok d
        | .ok _ => .error (cfg.argument_error_formatter tool_name
            "Function arguments must decode to a JSON object.")
  | .dict d => .ok d
  | .other (.ok d) => .ok d
  | .other (.error m) => .error (cfg.argument_error_formatter tool_name m)

/-- `ToolExecutionLoop._execute_tool`: a timeout becomes a
`ToolExecutionError` whose message interpolates the configured timeout;
other exceptions propagate as raised. -/
def execute_tool (cfg : LoopConfig) (func : ToolFunc)
    (args : List (String × Json)) : Except (ExcKind × String) Json :=
  match func args with
  | .ok v => .ok v
  | .exc k m => .error (k, m)
  | .timesOut => .error (.toolExecutionError,
      "Tool execution timed out after " ++ cfg.tool_timeout_repr
        ++ " seconds.")

/-- `ToolExecutionLoop._handle_tool_call`.  `Except.error` models an
exception escaping the handler (only non-recoverable execution errors
do). -/
def handle_tool_call (cfg : LoopConfig)
    (registry : Option (List (String × LoopToolDef)))
    (tc : ToolCallRequest) : Except String ToolCallResult :=
  match regLookup registry tc.name with
  | none => .ok ⟨tc.name,
      .error ("Tool '" ++ tc.name ++ "' not found in registry."),
      tc.call_id⟩
  | some td =>
      match normalize_function_args cfg tc.name tc.arguments with
      | .error m => .ok ⟨tc.name, .error m, tc.call_id⟩
      | .ok args =>
          match (match td.args_model with
                 | none => Except.ok args
                 | some vm => vm args) with
          | .error vmsg => .ok ⟨tc.name,
              .error ("Argument validation failed: " ++ vmsg), tc.call_id⟩
          | .ok args2 =>
              match execute_tool cfg td.func args2 with
              | .error (k, m) =>
                  if RECOVERABLE_ERRORS.contains k
                  then .ok ⟨tc.name, .error m, tc.call_id⟩
                  else .error m
              | .ok v => .ok ⟨tc.name, .result v, tc.call_id⟩

/-- Sequential effectful map with error propagation: the semantics of
`asyncio.gather` over the handler tasks — results in task order, the
first fatal exception propagating (which of several simultaneous fatal
exceptions wins is timing-dependent in Python; task order is one of the
admitted outcomes, and the claims below never depend on the choice). -/
def mapME {ε α β : Type} (g : α → Except ε β) :
    List α → Except ε (List β)
  | [] => .ok []
  | a :: t =>
      match g a with
      | .error e => .error e
      | .ok b => (mapME g t).map (b :: ·)

/-- The provider adapter (`adapter.py`), with its history side effects
made explicit as a state of type `Hist`. -/
structure ToolAdapter (Resp Msg Hist : Type) where
  get_tool_calls : Resp → List ToolCallRequest
  record_assistant_message : Resp → Hist → Hist
  build_tool_response_message : ToolCallResult → Msg
  send_tool_responses : List Msg → Hist → Resp × Hist

/-- `ToolExecutionLoop.run` (tool_loop.py lines 61-102): the fuel is the
`for loop_index in range(self._max_function_loops)` budget. -/
def run {Resp Msg Hist : Type} (cfg : LoopConfig)
    (registry : Option (List (String × LoopToolDef)))
    (A : ToolAdapter Resp Msg Hist) :
    Nat → Resp → Hist → Except String (Resp × Hist)
  | 0, resp, hist => .ok (resp, hist)
  | f + 1, resp, hist =>
      let tool_calls := A.get_tool_calls resp
      if tool_calls.isEmpty then
        .ok (resp, A.record_assistant_message resp hist)
      else
        let hist1 := A.record_assistant_message resp hist
        match mapME (handle_tool_call cfg registry) tool_calls with
        | .error m => .error m
        | .ok results =>
            let response_messages :=
              results.map A.build_tool_response_message
            if response_messages.isEmpty then .ok (resp, hist1)
            else
              let st := A.send_tool_responses response_messages hist1
              run cfg registry A f st.1 st.2

/-- One non-final iteration of the loop: record the assistant message,
handle every call, build the messages, send the batch.  (The `error` arm
is never taken under the no-fatal-exception hypotheses of the theorems
that use this.) -/
def loopStep {Resp Msg Hist : Type} (cfg : LoopConfig)
    (registry : Option (List (String × LoopToolDef)))
    (A : ToolAdapter Resp Msg Hist) (st : Resp × Hist) : Resp × Hist :=
  let hist1 := A.record_assistant_message st.1 st.2
  match mapME (handle_tool_call cfg registry) (A.get_tool_calls st.1) with
  | .ok results =>
      A.send_tool_responses (results.map A.build_tool_response_message) hist1
  | .error _ => (st.1, hist1)

/-- The number of loop-body iterations `run` executes. -/
def runCount {Resp Msg Hist : Type} (cfg : LoopConfig)
    (registry : Option (List (String × LoopToolDef)))
    (A : ToolAdapter Resp Msg Hist) :
    Nat → Resp → Hist → Nat
  | 0, _, _ => 0
  | f + 1, resp, hist =>
      let tool_calls := A.get_tool_calls resp
      if tool_calls.isEmpty then 1
      else
        let hist1 := A.record_assistant_message resp hist
        match mapME (handle_tool_call cfg registry) tool_calls with
        | .error _ => 1
        | .ok results =>
            let response_messages :=
              results.map A.build_tool_response_message
            if response_messages.isEmpty then 1
            else
              let st := A.send_tool_responses response_messages hist1
              1 + runCount cfg registry A f st.1 st.2

/-- The `max_function_loops` default of the provider cores
(`gemini/core.py` line 61 and `openai_api/core.py` line 79:
`max_function_loops: int = 5`). -/
def default_max_function_loops : Nat := 5

-- Concrete fixtures used by the loop witnesses.

/-- A loop configuration with the default timeout (`180.0`), the default
argument-error formatter, and a `json.loads` stub that always raises. -/
def cfgEx : LoopConfig :=
  ⟨"180.0", default_argument_error, fun _ => .error "loads stub"⟩

/-- A tool that returns `"ok"` immediately. -/
def tdEcho : LoopToolDef := ⟨fun _ => .ok (.str "ok"), none⟩

/-- A tool whose execution exceeds the per-call timeout. -/
def tdSlow : LoopToolDef := ⟨fun _ => .timesOut, none⟩

/-- A registry holding the two fixture tools. -/
def regEx : List (String × LoopToolDef) := [("echo", tdEcho), ("slow", tdSlow)]

def tcEcho : ToolCallRequest := ⟨"echo", .dict [("x", .num 2)], some "id-1"⟩

def tcGhost : ToolCallRequest := ⟨"ghost", .absent, some "id-2"⟩

def tcSlow : ToolCallRequest := ⟨"slow", .absent, some "id-3"⟩

/-- A fixture adapter over `Resp := Nat`, messages being the results
themselves and the history a list of past responses; every response
yields the same two tool calls. -/
def adapterEx : ToolAdapter Nat ToolCallResult (List Nat) :=
  ⟨fun _ => [tcEcho, tcGhost], fun r h => r :: h, fun r => r,
   fun _ h => (7, h)⟩

-- ===================================================================
-- Parameter introspection and registration
-- (`src/generic_llm_lib/llm_core/tools/schema/tool_param_factory.py`,
--  `src/generic_llm_lib/llm_core/tools/registry/base.py`)
-- ===================================================================

/-- One metadata item of a parameter's `Annotated[...]` annotation, as
`_extract_description` inspects it: a pydantic `FieldInfo` with its
(possibly `None` or empty, hence falsy) `description`, or any other
metadata object. -/
inductive AnnMeta where
  | fieldInfo (description : Option String) : AnnMeta
  | otherMeta : AnnMeta

/-- A formal parameter as `inspect.signature(func).parameters` yields it:
its name, the metadata items of its annotation when
`get_origin(annotation) is Annotated` (`none` otherwise), and whether it
has a default value. -/
structure PyParam where
  name : String
  annotated : Option (List AnnMeta)
  has_default : Bool

/-- A Python callable as the auto-introspection path reads it:
`func.__name__`, `inspect.getdoc(func)`, and its signature. -/
structure PyFunc where
  name : String
  docstring : Option String
  params : List PyParam

/-- The `ToolValidationError` message of
`ToolParameterFactory._extract_description`. -/
def missing_desc_msg (param_name tool_name : String) : String :=
  "Parameter '" ++ param_name ++ "' in tool '" ++ tool_name
    ++ "' is missing a description.\nUsage: " ++ param_name
    ++ ": Annotated[Type, Field(description='...')] = ..."

/-- The `ToolValidationError` message of
`ToolRegistry._get_docstring_from_func`. -/
def missing_doc_msg (tool_name : String) : String :=
  "Tool '" ++ tool_name
    ++ "' missing docstring. LLMs need a description of what the tool does."

/-- The loop of `_extract_description`: the first `FieldInfo` metadata
item with a truthy `description` wins. -/
def firstFieldInfoDesc : List AnnMeta → Option String
  | [] => none
  | .fieldInfo (some d) :: t =>
      if d = "" then firstFieldInfoDesc t else some d
  | .fieldInfo none :: t => firstFieldInfoDesc t
  | .otherMeta :: t => firstFieldInfoDesc t

/-- Whether `_extract_description` finds a description on a parameter. -/
def hasParamDesc (p : PyParam) : Bool :=
  match p.annotated with
  | some metas => (firstFieldInfoDesc metas).isSome
  | none => false

/-- The library's error taxonomy as far as registration uses it. -/
inductive LibError where
  | validation (msg : String) : LibError
  | registration (msg : String) : LibError

/-- `ToolParameterFactory._extract_description`: a `ToolValidationError`
(naming the parameter) unless the annotation is `Annotated` and carries a
`FieldInfo` with a truthy description. -/
def extract_description (p : PyParam) (tool_name : String) :
    Except LibError String :=
  match p.annotated with
  | some metas =>
      match firstFieldInfoDesc metas with
      | some d => .ok d
      | none => .error (.validation (missing_desc_msg p.name tool_name))
  | none => .error (.validation (missing_desc_msg p.name tool_name))

/-- The field tuple `ToolParameterFactory.build_field_tuple` produces:
annotation, extracted description, and requiredness (no default ⇒
required, pydantic `...`). -/
structure FieldSpec where
  annotated : Option (List AnnMeta)
  description : String
  required : Bool

/-- `ToolParameterFactory.build_field_tuple`. -/
def build_field_tuple (tool_name : String) (p : PyParam) :
    Except LibError FieldSpec :=
  match extract_description p tool_name with
  | .error e => .error e
  | .ok d => .ok ⟨p.annotated, d, !p.has_default⟩

/-- `ToolRegistry._build_fields`: every parameter except `self`, the
first `ToolValidationError` propagating. -/
def build_fields (tool_name : String) :
    List PyParam → Except LibError (List (String × FieldSpec))
  | [] => .ok []
  | p :: t =>
      if p.name = "self" then build_fields tool_name t
      else
        match build_field_tuple tool_name p with
        | .error e => .error e
        | .ok ft => (build_fields tool_name t).map ((p.name, ft) :: ·)

/-- `ToolRegistry._get_docstring_from_func` (falsy docstring rejected). -/
def get_docstring_from_func (f : PyFunc) (tool_name : String) :
    Except LibError String :=
  match f.docstring with
  | some d => if d = "" then .error (.validation (missing_doc_msg tool_name))
      else .ok d
  | none => .error (.validation (missing_doc_msg tool_name))

/-- The description resolution step of `_generate_tool_definition`: an
explicitly passed description, else the callable's docstring. -/
def resolve_description (f : PyFunc) (tool_name : String)
    (description : Option String) : Except LibError String :=
  match description with
  | some d => Except.ok d
  | none => get_docstring_from_func f tool_name

/-- The tool-definition record built by registration, with the
post-introspection stages (pydantic `create_model`, `model_json_schema`,
recursion check, `jsonref` inlining, sanitization) abstracted into the
type parameters. -/
structure ToolDefn (Schema Model : Type) where
  name : String
  description : String
  parameters : Schema
  args_model : Model

/-- `ToolRegistry._generate_tool_definition` on the bare-callable path
(`name=None`): docstring (unless an explicit description was passed),
fields, then the later schema stages `post` (abstracted: everything the
source does after `_build_fields` — `create_model`,
`assert_no_recursive_refs`, `jsonref.replace_refs`, `sanitize_schema`). -/
def generate_tool_definition {Schema Model : Type}
    (post : List (String × FieldSpec) → Except LibError (Schema × Model))
    (f : PyFunc) (description : Option String) :
    Except LibError (ToolDefn Schema Model) :=
  let tool_name := f.name
  match resolve_description f tool_name description with
  | .error e => .error e
  | .ok descr =>
      match build_fields tool_name f.params with
      | .error e => .error e
      | .ok fields =>
          match post fields with
          | .error e => .error e
          | .ok (schema, model) => .ok ⟨tool_name, descr, schema, model⟩

/-- `ToolRegistry.register` on the bare-callable path: generate the
definition, then fail on a duplicate name or append the new tool.  An
`error` result models the raised exception: `self.tools` is only assigned
afterwards, so the registry is unchanged. -/
def register_callable {Schema Model : Type}
    (post : List (String × FieldSpec) → Except LibError (Schema × Model))
    (reg : List (String × ToolDefn Schema Model))
    (f : PyFunc) (description : Option String) :
    Except LibError (List (String × ToolDefn Schema Model)) :=
  match generate_tool_definition post f description with
  | .error e => .error e
  | .ok td =>
      if (reg.map Prod.fst).contains td.name then
        .error (.registration
          ("Tool '" ++ td.name ++ "' is already registered."))
      else .ok (reg ++ [(td.name, td)])

-- Fixtures for the C5 witness.

def pSelf : PyParam := ⟨"self", none, false⟩

def pGoodParam : PyParam := ⟨"a", some [.fieldInfo (some "first addend")], false⟩

def pBadParam : PyParam := ⟨"b", some [.otherMeta], true⟩

def funcEx : PyFunc := ⟨"addnums", some "Adds two numbers.",
  [pSelf, pGoodParam, pBadParam]⟩

-- ===================================================================
-- `ToolRegistry._resolve_schema_refs` (src/llm_core/registry.py,
-- lines 144-174): reference inlining.  The Python function takes no
-- depth parameter and performs no depth accounting of its own; the
-- `fuel` argument below is only Lean's termination device, and any
-- fuel larger than the call tree's height gives the Python result.
-- ===================================================================

/-- Splitting a character list at every occurrence of `sep`, keeping empty
pieces — the behaviour of Python `s.split(sep)` for a one-character
separator. -/
def splitChar (sep : Char) : List Char → List (List Char)
  | [] => [[]]
  | c :: t =>
      let r := splitChar sep t
      if c == sep then [] :: r
      else
        match r with
        | h :: t' => (c :: h) :: t'
        | [] => [[c]]

/-- Python `s.split("/")`. -/
def splitSlash (s : String) : List String :=
  (splitChar (Char.ofNat 47) s.data).map String.mk

/-- Whether `needle` occurs as a contiguous run inside `hay` (Python
`needle in hay` on strings). -/
def subOccurs (needle : List Char) : List Char → Bool
  | [] => needle.isEmpty
  | c :: t => needle.isPrefixOf (c :: t) || subOccurs needle t

/-- Python `key in x` for a JSON value: key lookup on a dict, substring
test on a string, element membership on a list (a string literal can only
equal a `str` element), `TypeError` (`none`) otherwise. -/
def pyIn (key : String) : Json → Option Bool
  | .obj fs => some (hasKey key fs)
  | .str s => some (subOccurs key.data s.data)
  | .arr xs =>
      some (xs.any (fun x => match x with | .str t => t == key | _ => false))
  | _ => none

/-- Python `x[key]` with a string key: only a dict supports it (`TypeError`
on `str` / `list`, which require integer indices). -/
def pyGetItem (x : Json) (key : String) : Option Json :=
  match x with
  | .obj fs => getEntry key fs
  | _ => none

/-- Python iteration `for item in x`: a list yields its elements, a string
its characters (as one-character strings), a dict its keys; other values
raise `TypeError`. -/
def pyIter : Json → Option (List Json)
  | .arr xs => some xs
  | .str s => some (s.data.map (fun c => Json.str (String.singleton c)))
  | .obj fs => some (fs.map (fun kv => Json.str kv.1))
  | _ => none

/-- `del schema[k]`. -/
def delKey (k : String) (fs : JEntries) : JEntries :=
  fs.filter (fun kv => !(kv.1 == k))

/-- The merge loop
`for k, v in resolved_content.items(): if k not in schema or k == "$ref":
schema[k] = v`. -/
def mergeResolved (fs rs : JEntries) : JEntries :=
  rs.foldl
    (fun acc kv =>
      if !(hasKey kv.1 acc) || kv.1 == "$ref" then setKey kv.1 kv.2 acc
      else acc) fs

/-- The keys of `_resolve_schema_refs`'s final loop:
`for key in ["anyOf", "allOf", "oneOf"]`. -/
def unionKeys : List String := ["anyOf", "allOf", "oneOf"]

/-- One pass of that loop:
`if key in schema: schema[key] = [self._resolve_schema_refs(item, defs)
for item in schema[key]]`. -/
def resolveListKey (rec : Json → Option Json) (key : String)
    (fs : JEntries) : Option JEntries :=
  match getEntry key fs with
  | none => some fs
  | some v =>
      match pyIter v with
      | none => none
      | some items =>
          (mapMO rec items).map (fun out => setKey key (Json.arr out) fs)

/-- The tail of `_resolve_schema_refs` reached when no `$ref` is followed:
rewrite `properties` values, `items`, and the `anyOf` / `allOf` / `oneOf`
lists, then return the dict.  A non-dict `properties` value raises at
`.items()` (`none`). -/
def resolveTail (rec : Json → Option Json) (fs : JEntries) : Option Json :=
  (match getEntry "properties" fs with
   | none => some fs
   | some (.obj ps) =>
       (mapMO (fun (kv : String × Json) =>
           (rec kv.2).map (fun w => (kv.1, w))) ps).map
         (fun ps' => setKey "properties" (Json.obj ps') fs)
   | some _ => none).bind
  (fun fs₁ =>
    (match getEntry "items" fs₁ with
     | none => some fs₁
     | some v => (rec v).map (fun w => setKey "items" w fs₁)).bind
    (fun fs₂ =>
      (resolveListKey rec "anyOf" fs₂).bind
      (fun fs₃ =>
        (resolveListKey rec "allOf" fs₃).bind
        (fun fs₄ =>
          (resolveListKey rec "oneOf" fs₄).map Json.obj))))

/-- The body of `_resolve_schema_refs` after the `$defs` pop, with `rec`
the recursive call at fixed `defs`.  On a dict with a `$ref` key: a
non-string `$ref` value raises at `.split` (`none`); when the referenced
name is in `defs` the definition is resolved recursively, merged without
overwriting, and `$ref` deleted (a non-dict resolution raises at
`.items()`); when it is not, control falls through to the tail with the
`$ref` entry still present.  On a non-dict the membership tests and
subscripts of the body apply Python's duck typing: any of the six key
literals present in a string or list leads to a `TypeError` at its
subscript (`none`), otherwise the value returns unchanged; numbers,
booleans and `None` raise at the first `in`. -/
def resolveCore (rec : Json → Option Json) (schema : Json) (defs : Json) :
    Option Json :=
  match schema with
  | .obj fs =>
      match getEntry "$ref" fs with
      | some (.str refstr) =>
          let ref_key := (splitSlash refstr).getLastD ""
          (match pyIn ref_key defs with
           | none => none
           | some true =>
               (pyGetItem defs ref_key).bind (fun ref_content =>
                 (rec ref_content).bind (fun resolved =>
                   match resolved with
                   | .obj rs =>
                       some (Json.obj (delKey "$ref" (mergeResolved fs rs)))
                   | _ => none))
           | some false => resolveTail rec fs)
      | some _ => none
      | none => resolveTail rec fs
  | .str s =>
      if ("$ref" :: "properties" :: "items" :: unionKeys).any
          (fun m => subOccurs m.data s.data) then none
      else some (.str s)
  | .arr xs =>
      if ("$ref" :: "properties" :: "items" :: unionKeys).any
          (fun m => xs.any (fun x =>
            match x with | .str t => t == m | _ => false)) then none
      else some (.arr xs)
  | _ => none

/-- `_resolve_schema_refs(schema, defs)`.  `defs = none` is the top-level
call `defs=None`, which pops `$defs` (default `{}`) from the schema —
`.pop` on a non-dict raises (`none`).  `copy.deepcopy` is the identity
under value semantics.  `fuel` only bounds Lean's recursion; the Python
code has no depth parameter. -/
def resolve_schema_refs : Nat → Json → Option Json → Option Json
  | 0, _, _ => none
  | fuel + 1, schema, some defs =>
      resolveCore (fun x => resolve_schema_refs fuel x (some defs)) schema
        defs
  | fuel + 1, schema, none =>
      match schema with
      | .obj fs =>
          resolveCore
            (fun x =>
              resolve_schema_refs fuel x
                (some ((getEntry "$defs" fs).getD (Json.obj []))))
            (.obj (delKey "$defs" fs))
            ((getEntry "$defs" fs).getD (Json.obj []))
      | _ => none

-- A non-cyclic reference chain 25 definitions deep (deeper than the
-- claimed default bound of about 20): N1 -> N2 -> ... -> N25.

/-- Definition names of the chain. -/
def mkName (i : Nat) : String := "N" ++ toString i

/-- `$defs` of the chain: `Ni = {"$ref": "#/$defs/N(i+1)"}` for
`i = 1..24` and `N25 = {"type": "integer"}`. -/
def chainDefs : JEntries :=
  ((List.range 24).map (fun i =>
    (mkName (i + 1),
     Json.obj [("$ref", Json.str ("#/$defs/" ++ mkName (i + 2)))]))) ++
  [(mkName 25, Json.obj [("type", Json.str "integer")])]

/-- The schema whose reference nesting is 25 deep. -/
def deepChainSchema : Json :=
  .obj [("$ref", .str ("#/$defs/" ++ mkName 1)),
        ("$defs", .obj chainDefs)]

-- ===================================================================
-- `SchemaValidator.assert_no_recursive_refs`
-- (src/llm_core/tools/schema_validator.py, lines 14-58): the cycle
-- detection pass that `_generate_tool_definition`
-- (src/generic_llm_lib/llm_core/tools/registry/base.py, lines 156-165)
-- runs on the raw pydantic schema before handing it to reference
-- inlining.
-- ===================================================================

/-- Python truthiness of a JSON value. -/
def truthy : Json → Bool
  | .null => false
  | .bool b => b
  | .num n => n != 0
  | .str s => s != ""
  | .arr xs => !xs.isEmpty
  | .obj fs => !fs.isEmpty

/-- The `ToolValidationError` message raised on a repeated reference:
`f"Recursive structure detected: {ref}. ..."`. -/
def recMsg (ref : String) : String :=
  "Recursive structure detected: " ++ ref ++
  ". Recursive structures are not allowed in tool inputs. " ++
  "Use parent_id, lists, or a workflow loop instead."

/-- Outcome of `check(node, path)`: clean return, a raised
`ToolValidationError`, another raised exception (`TypeError` /
`AttributeError` from duck typing), or out of Lean fuel. -/
inductive CheckOut where
  | ok : CheckOut
  | err (m : String) : CheckOut
  | crash : CheckOut
  | spent : CheckOut
deriving DecidableEq

/-- A `for` loop of `check` calls: the first raised exception
propagates, otherwise the loop returns cleanly. -/
def checkSeq (g : Json → List String → CheckOut) :
    List Json → List String → CheckOut
  | [], _ => .ok
  | x :: t, p =>
      match g x p with
      | .ok => checkSeq g t p
      | r => r

/-- The `if "$ref" in node` arm of `check` for a string reference `r`:
raise on `r in path`; otherwise follow `r` only when it starts with
`#`, splits into at least 3 parts, and its last part is a key of
`defs`; in every other case return cleanly.  `def_name in defs` and
`defs[def_name]` on a non-dict `defs` raise. -/
def checkRef (rec : Json → List String → CheckOut) (defs : Json)
    (r : String) (path : List String) : CheckOut :=
  if path.contains r then .err (recMsg r)
  else if "#".data.isPrefixOf r.data then
    (let parts := splitSlash r
     if 3 ≤ parts.length then
       (match pyIn (parts.getLastD "") defs with
        | none => .crash
        | some false => .ok
        | some true =>
            match pyGetItem defs (parts.getLastD "") with
            | none => .crash
            | some body => rec body (r :: path))
     else .ok)
  else .ok

/-- One call of `check(node, path)` with `rec` the recursive call.  A
dict with a `$ref` key handles only the reference and returns (its
other entries are never visited); a non-string `$ref` value raises at
`.startswith` / `in path`; a dict without `$ref` checks its values, a
list its items, and any other value returns cleanly. -/
def checkNode (rec : Json → List String → CheckOut) (defs : Json) :
    Json → List String → CheckOut
  | .obj fs, path =>
      (match getEntry "$ref" fs with
       | some (.str r) => checkRef rec defs r path
       | some _ => .crash
       | none => checkSeq rec (fs.map Prod.snd) path)
  | .arr xs, path => checkSeq rec xs path
  | _, _ => .ok

/-- `check` itself, fuel-indexed (the fuel is Lean's termination
device only). -/
def checkF (defs : Json) : Nat → Json → List String → CheckOut
  | 0, _, _ => .spent
  | fuel + 1, node, path => checkNode (checkF defs fuel) defs node path

/-- `defs = schema.get("$defs", {}) or schema.get("definitions", {})`. -/
def defsOf (fs : JEntries) : Json :=
  let d1 := (getEntry "$defs" fs).getD (Json.obj [])
  if truthy d1 then d1 else (getEntry "definitions" fs).getD (Json.obj [])

/-- `assert_no_recursive_refs(schema)`: extract `defs`, then
`check(schema, set())`.  `.get` on a non-dict raises. -/
def assert_no_recursive_refs (fuel : Nat) (schema : Json) : CheckOut :=
  match schema with
  | .obj fs => checkF (defsOf fs) fuel (.obj fs) []
  | _ => .crash

/-- The schema stage of `_generate_tool_definition` (registry/base.py,
lines 157-165): run `assert_no_recursive_refs` on the raw schema, and
only when it returns cleanly hand the schema to reference inlining
(`jsonref.replace_refs`, kept abstract as `inline`) and then
sanitization.  A raised `ToolValidationError` aborts the stage
(`Except.error`); any other raised exception or fuel exhaustion is the
outer `none`. -/
def schema_stage (fuel : Nat) (raw : Json)
    (inline san : Json → Option Json) :
    Option (Except String (Option Json)) :=
  match assert_no_recursive_refs fuel raw with
  | .ok => some (.ok ((inline raw).bind san))
  | .err m => some (.error m)
  | _ => none

-- Spec-side reference-graph notions, following the claim's words: a
-- "true reference cycle" is a local reference reachable from itself
-- through the definition bodies.

/-- The local reference string `#/$defs/<n>`. -/
def localRef (n : String) : String := "#/$defs/" ++ n

/-- A dict node whose `$ref` entry is the string `r` occurs somewhere
in the tree. -/
inductive OccursIn (r : String) : Json → Prop where
  | here (fs : JEntries) : getEntry "$ref" fs = some (.str r) →
      OccursIn r (.obj fs)
  | inObj (fs : JEntries) (k : String) (v : Json) : (k, v) ∈ fs →
      OccursIn r v → OccursIn r (.obj fs)
  | inArr (xs : List Json) (x : Json) : x ∈ xs →
      OccursIn r x → OccursIn r (.arr xs)

/-- Definition `a` references definition `b`: a node carrying
`"$ref": "#/$defs/b"` occurs in `a`'s body. -/
def RefEdge (defs : JEntries) (a b : String) : Prop :=
  ∃ body, getEntry a defs = some body ∧ OccursIn (localRef b) body

/-- The definition graph has a true reference cycle: some local
reference is reachable from itself. -/
def HasRefCycle (defs : JEntries) : Prop :=
  ∃ n, Relation.TransGen (RefEdge defs) n n

/-- Canonical schema trees: every dict node that carries a `$ref` key
is exactly `{"$ref": "#/$defs/<n>"}` with `n` a slash-free key of
`defs` — the only shape the pydantic schema generator emits. -/
inductive Canon (defs : JEntries) : Json → Prop where
  | ref (n : String) : hasKey n defs = true → ('/' ∈ n.data → False) →
      Canon defs (.obj [("$ref", .str (localRef n))])
  | obj (fs : JEntries) : getEntry "$ref" fs = none →
      (∀ kv ∈ fs, Canon defs kv.2) → Canon defs (.obj fs)
  | arr (xs : List Json) : (∀ x ∈ xs, Canon defs x) →
      Canon defs (.arr xs)
  | base (j : Json) : (∀ xs, j ≠ .arr xs) → (∀ fs, j ≠ .obj fs) →
      Canon defs j

/-- `∃ f, check succeeds` — by fuel monotonicity, the Python call
returns cleanly. -/
def Oks (defs : Json) (x : Json) (p : List String) : Prop :=
  ∃ f, checkF defs f x p = .ok

/-- The local references of `defs` keys not yet on `path` — the pool
a traversal branch can still add to its path. -/
def freeList (defs : JEntries) (p : List String) : List String :=
  ((defs.map (fun kv => localRef kv.1)).dedup).filter
    (fun r => !(p.contains r))

/-- Ref outcomes a canonical schema can produce: clean, out of fuel,
or the recursion error for a local reference. -/
def goodOut (r : CheckOut) : Prop :=
  r = .ok ∨ r = .spent ∨ ∃ n, r = .err (recMsg (localRef n))

-- Counterexample fixture: a canonical self-referential definition
-- whose only use site sits next to a `$ref` the detector cannot
-- follow.  `check` handles that `$ref` and returns without visiting
-- the sibling `properties` subtree, so the cycle is never seen, while
-- `_resolve_schema_refs` falls through to `properties` and inlines
-- the cycle forever.

/-- `{"$ref": "#/$defs/A"}`. -/
def refA : Json := .obj [("$ref", .str (localRef "A"))]

/-- `{"A": {"$ref": "#/$defs/A"}}` — `A` references itself. -/
def cycDefs : JEntries := [("A", refA)]

/-- The schema: a dangling top-level `$ref` shadows the subtree that
reaches the cycle. -/
def cycFs : JEntries :=
  [("$ref", .str "nope"),
   ("properties", .obj [("a", refA)]),
   ("$defs", .obj cycDefs)]

/-- The counterexample schema as a JSON value. -/
def cycSchema : Json := .obj cycFs

-- Witness fixture for the amended claim: the same cycle in a fully
-- canonical schema.

/-- `{"$defs": {"A": {"$ref": "#/$defs/A"}}}`. -/
def wFs : JEntries := [("$defs", .obj cycDefs)]

-- ===================================================================
-- Theorems
-- ===================================================================

-- `mapME` (gather) helper lemmas.

theorem mapME_forall2 {ε α β : Type} (g : α → Except ε β) :
    ∀ (l : List α) (l' : List β),
      mapME g l = .ok l' ↔ List.Forall₂ (fun a b => g a = .ok b) l l' := by
  intro l
  induction l with
  | nil =>
      intro l'
      constructor
      · intro h
        simp only [mapME] at h
        cases h
        exact List.Forall₂.nil
      · intro h
        cases h
        rfl
  | cons a t ih =>
      intro l'
      constructor
      · intro h
        simp only [mapME] at h
        cases hga : g a with
        | error e => rw [hga] at h; cases h
        | ok b =>
            rw [hga] at h
            cases hgt : mapME g t with
            | error e => rw [hgt] at h; cases h
            | ok bs =>
                rw [hgt] at h
                simp only [Except.map, Except.ok.injEq] at h
                rw [← h]
                exact List.Forall₂.cons hga ((ih bs).mp hgt)
      · intro h
        cases h with
        | cons hab ht =>
            rename_i b bs
            have hbs := (ih bs).mpr ht
            simp [mapME, hab, hbs, Except.map]

theorem mapME_ok_of_all {ε α β : Type} {g : α → Except ε β} :
    ∀ {l : List α}, (∀ a ∈ l, ∃ b, g a = .ok b) →
      ∃ l', mapME g l = .ok l' := by
  intro l
  induction l with
  | nil => exact fun _ => ⟨[], rfl⟩
  | cons a t ih =>
      intro h
      obtain ⟨b, hb⟩ := h a (List.mem_cons_self a t)
      obtain ⟨bs, hbs⟩ := ih (fun c hc => h c (List.mem_cons_of_mem a hc))
      exact ⟨b :: bs, by simp [mapME, hb, hbs, Except.map]⟩

/-- Every arm of `_handle_tool_call` that returns a result echoes the
request's name and correlation id into it. -/
theorem handle_tool_call_ids {cfg : LoopConfig}
    {registry : Option (List (String × LoopToolDef))}
    {tc : ToolCallRequest} {r : ToolCallResult}
    (h : handle_tool_call cfg registry tc = .ok r) :
    r.call_id = tc.call_id ∧ r.name = tc.name := by
  unfold handle_tool_call at h
  cases hreg : regLookup registry tc.name with
  | none =>
      simp only [hreg] at h
      cases h
      exact ⟨rfl, rfl⟩
  | some td =>
      simp only [hreg] at h
      cases hnorm : normalize_function_args cfg tc.name tc.arguments with
      | error m =>
          simp only [hnorm] at h
          cases h
          exact ⟨rfl, rfl⟩
      | ok args =>
          simp only [hnorm] at h
          cases hval : (match td.args_model with
                        | none => Except.ok args
                        | some vm => vm args) with
          | error vmsg =>
              simp only [hval] at h
              cases h
              exact ⟨rfl, rfl⟩
          | ok args2 =>
              simp only [hval] at h
              cases hex : execute_tool cfg td.func args2 with
              | error km =>
                  simp only [hex] at h
                  obtain ⟨k, m⟩ := km
                  by_cases hk : RECOVERABLE_ERRORS.contains k
                  · simp only [hk, if_true] at h
                    cases h
                    exact ⟨rfl, rfl⟩
                  · simp only [hk, if_false, Bool.false_eq_true] at h
                    cases h
              | ok v =>
                  simp only [hex] at h
                  cases h
                  exact ⟨rfl, rfl⟩

-- Association list and `Option.mapM` helper lemmas.

theorem getEntry_append (k : String) (l₁ l₂ : JEntries) :
    getEntry k (l₁ ++ l₂) = ((getEntry k l₁).orElse fun _ => getEntry k l₂) := by
  induction l₁ with
  | nil => simp [getEntry]
  | cons e t ih =>
      obtain ⟨k', v⟩ := e
      by_cases hk : k' = k <;> simp [getEntry, hk, ih]

theorem getEntry_append_single_ne (k k' : String) (hne : k' ≠ k)
    (l : JEntries) (v : Json) :
    getEntry k (l ++ [(k', v)]) = getEntry k l := by
  rw [getEntry_append]
  cases h : getEntry k l with
  | none => simp [Option.orElse, getEntry, hne]
  | some w => simp [Option.orElse]

theorem getEntry_eq_some_mem {k : String} {l : JEntries} {v : Json}
    (h : getEntry k l = some v) : (k, v) ∈ l := by
  induction l with
  | nil => simp [getEntry] at h
  | cons e t ih =>
      obtain ⟨k', w⟩ := e
      by_cases hk : k' = k
      · subst hk
        simp [getEntry] at h
        simp [h]
      · simp [getEntry, hk] at h
        exact List.mem_cons_of_mem _ (ih h)

theorem getEntry_map_setKey (k k' : String) (hne : k' ≠ k) (v : Json) :
    ∀ l : JEntries,
      getEntry k (l.map (fun e => if e.1 = k' then (k', v) else e)) =
        getEntry k l := by
  intro l
  induction l with
  | nil => simp [getEntry]
  | cons e t ih =>
      obtain ⟨k₀, w⟩ := e
      simp only [List.map_cons]
      by_cases h0 : k₀ = k'
      · rw [if_pos h0]
        subst h0
        simp only [getEntry]
        rw [if_neg hne, if_neg hne]
        exact ih
      · rw [if_neg h0]
        simp only [getEntry]
        by_cases h1 : k₀ = k
        · rw [if_pos h1, if_pos h1]
        · rw [if_neg h1, if_neg h1]
          exact ih

theorem getEntry_setKey_ne (k k' : String) (hne : k' ≠ k) (v : Json)
    (l : JEntries) : getEntry k (setKey k' v l) = getEntry k l := by
  unfold setKey
  by_cases hh : hasKey k' l
  · simp only [hh, if_true]
    exact getEntry_map_setKey k k' hne v l
  · simp only [hh, if_false]
    exact getEntry_append_single_ne k k' hne l v

theorem mem_setKey {k : String} {v : Json} {l : JEntries} {e : String × Json}
    (h : e ∈ setKey k v l) : e.2 = v ∨ e ∈ l := by
  unfold setKey at h
  by_cases hh : hasKey k l
  · simp only [hh, if_true, List.mem_map] at h
    obtain ⟨e₀, he₀, heq⟩ := h
    by_cases h0 : e₀.1 = k
    · rw [← heq]
      simp [h0]
    · rw [← heq]
      simp only [h0, if_false]
      exact Or.inr he₀
  · simp only [hh, if_false] at h
    rcases List.mem_append.mp h with h | h
    · exact Or.inr h
    · simp only [List.mem_singleton] at h
      exact Or.inl (by rw [h])

theorem mapMO_forall2 {α β : Type} (g : α → Option β) :
    ∀ (l : List α) (l' : List β),
      mapMO g l = some l' ↔ List.Forall₂ (fun a b => g a = some b) l l' := by
  intro l
  induction l with
  | nil =>
      intro l'
      constructor
      · intro h
        simp only [mapMO, Option.some_inj] at h
        rw [← h]
        exact List.Forall₂.nil
      · intro h
        cases h
        rfl
  | cons a t ih =>
      intro l'
      constructor
      · intro h
        simp only [mapMO] at h
        cases hga : g a with
        | none => rw [hga] at h; cases h
        | some b =>
            rw [hga] at h
            cases hgt : mapMO g t with
            | none => rw [hgt] at h; cases h
            | some bs =>
                rw [hgt] at h
                simp only [Option.map_some', Option.some_inj] at h
                rw [← h]
                exact List.Forall₂.cons hga ((ih bs).mp hgt)
      · intro h
        cases h with
        | cons hab ht =>
            rename_i b bs
            have hbs := (ih bs).mpr ht
            simp [mapMO, hab, hbs]

theorem mapMO_congr {α β : Type} {g g' : α → Option β} {l : List α}
    {l' : List β} (h : mapMO g l = some l')
    (hgg : ∀ a ∈ l, ∀ b, g a = some b → g' a = some b) :
    mapMO g' l = some l' := by
  rw [mapMO_forall2] at h ⊢
  induction h with
  | nil => exact List.Forall₂.nil
  | cons hab ht ih =>
      rename_i a b ta tb
      exact List.Forall₂.cons
        (hgg a (List.mem_cons_self a ta) b hab)
        (ih (fun x hx c hc => hgg x (List.mem_cons_of_mem a hx) c hc))

-- popMeta and GoodSchema basics.

theorem mem_popMeta {fs : JEntries} {e : String × Json} (h : e ∈ popMeta fs) :
    metadataKeys.contains e.1 = false ∧ e ∈ fs := by
  unfold popMeta at h
  have := List.mem_filter.mp h
  refine ⟨?_, this.1⟩
  have h2 := this.2
  simpa using h2

theorem popMeta_eq_self {fs : JEntries}
    (h : ∀ e ∈ fs, metadataKeys.contains e.1 = false) : popMeta fs = fs := by
  unfold popMeta
  rw [List.filter_eq_self]
  intro e he
  rw [h e he]
  rfl

theorem popMeta_popMeta (fs : JEntries) : popMeta (popMeta fs) = popMeta fs :=
  popMeta_eq_self (fun e he => (mem_popMeta he).1)

theorem getEntry_popMeta (k : String) (hk : metadataKeys.contains k = false) :
    ∀ fs : JEntries, getEntry k (popMeta fs) = getEntry k fs := by
  have hk' : k ∉ metadataKeys := by simpa using hk
  intro fs
  induction fs with
  | nil => rfl
  | cons e t ih =>
      obtain ⟨k₀, v⟩ := e
      by_cases hm : k₀ ∈ metadataKeys
      · have hne : k₀ ≠ k := fun h => hk' (h ▸ hm)
        simp [popMeta, List.filter_cons, hm, getEntry, hne] at ih ⊢
        exact ih
      · by_cases h1 : k₀ = k
        · simp [popMeta, List.filter_cons, hm, getEntry, h1, hk']
        · simp [popMeta, List.filter_cons, hm, getEntry, h1] at ih ⊢
          exact ih

theorem good_obj_entry {fs : JEntries} (h : GoodSchema (.obj fs))
    {e : String × Json} (he : e ∈ fs) : GoodSchema e.2 := by
  cases h with
  | obj _ _ hall => exact hall e he

theorem good_arr_mem {xs : List Json} (h : GoodSchema (.arr xs))
    {x : Json} (hx : x ∈ xs) : GoodSchema x := by
  cases h with
  | arr _ hall => exact hall x hx

theorem good_obj_cond {fs : JEntries} (h : GoodSchema (.obj fs)) :
    typeIsNullB (.obj fs) = false ∨ hasKey "anyOf" fs = false := by
  cases h with
  | obj _ hc _ => exact hc

-- Pointwise congruence of the sanitizer's helper maps in the recursive
-- callee: used both for fuel monotonicity and for the idempotence proof.

theorem sanListItem_congr {san san' : Json → Option Json}
    (hs : ∀ x y, san x = some y → san' x = some y) :
    ∀ x w, sanListItem san x = some w → sanListItem san' x = some w := by
  intro x w h
  cases x <;> simp only [sanListItem] at h ⊢ <;> first
    | exact h
    | exact hs _ _ h

theorem sanVal_congr {san san' : Json → Option Json}
    (hs : ∀ x y, san x = some y → san' x = some y) :
    ∀ v w, sanVal san v = some w → sanVal san' v = some w := by
  intro v w h
  cases v with
  | arr items =>
      simp only [sanVal] at h ⊢
      obtain ⟨l', hl', rfl⟩ := Option.map_eq_some'.mp h
      rw [mapMO_congr hl' (fun a _ b hb => sanListItem_congr hs a b hb)]
      rfl
  | obj fs => exact hs _ _ h
  | null => exact h
  | bool b => exact h
  | num n => exact h
  | str s => exact h

theorem sanEntries_congr {san san' : Json → Option Json}
    (hs : ∀ x y, san x = some y → san' x = some y)
    {ns : JEntries} {gs : JEntries} (h : sanEntries san ns = some gs) :
    sanEntries san' ns = some gs := by
  unfold sanEntries at h ⊢
  refine mapMO_congr h ?_
  intro e _ e' he'
  obtain ⟨w, hw, rfl⟩ := Option.map_eq_some'.mp he'
  rw [sanVal_congr hs _ _ hw]
  rfl

theorem sanitizeRest_congr {san san' : Json → Option Json}
    (hs : ∀ x y, san x = some y → san' x = some y)
    {ns : JEntries} {y : Json} (h : sanitizeRest san ns = some y) :
    sanitizeRest san' ns = some y := by
  unfold sanitizeRest at h ⊢
  obtain ⟨gs, hgs, rfl⟩ := Option.map_eq_some'.mp h
  rw [sanEntries_congr hs hgs]
  rfl

-- Equation lemmas for `sanitizeObj`, one per arm of the source's control
-- flow.

theorem sanitizeObj_no_anyOf {san : Json → Option Json} {fs : JEntries}
    (hv : getEntry "anyOf" (popMeta fs) = none) :
    sanitizeObj san fs = sanitizeRest san (popMeta fs) := by
  unfold sanitizeObj
  simp only [hv]

theorem sanitizeObj_crash {san : Json → Option Json} {fs : JEntries}
    {v : Json} (hv : getEntry "anyOf" (popMeta fs) = some v)
    (hi : iterAnyOf v = none) : sanitizeObj san fs = none := by
  unfold sanitizeObj
  simp only [hv, hi]

theorem sanitizeObj_collapse {san : Json → Option Json} {fs : JEntries}
    {v : Json} {xs : List Json} {s : Json}
    (hv : getEntry "anyOf" (popMeta fs) = some v)
    (hi : iterAnyOf v = some xs)
    (hf : xs.filter (fun x => !typeIsNullB x) = [s]) :
    sanitizeObj san fs = san (mergeBranch (popMeta fs) s) := by
  unfold sanitizeObj
  simp only [hv, hi, hf]

theorem sanitizeObj_union_nil {san : Json → Option Json} {fs : JEntries}
    {v : Json} {xs : List Json}
    (hv : getEntry "anyOf" (popMeta fs) = some v)
    (hi : iterAnyOf v = some xs)
    (hf : xs.filter (fun x => !typeIsNullB x) = []) :
    sanitizeObj san fs = sanitizeRest san (popMeta fs) := by
  unfold sanitizeObj
  simp only [hv, hi, hf]

theorem sanitizeObj_union_big {san : Json → Option Json} {fs : JEntries}
    {v : Json} {xs : List Json} {a b : Json} {t : List Json}
    (hv : getEntry "anyOf" (popMeta fs) = some v)
    (hi : iterAnyOf v = some xs)
    (hf : xs.filter (fun x => !typeIsNullB x) = a :: b :: t) :
    sanitizeObj san fs = sanitizeRest san (popMeta fs) := by
  unfold sanitizeObj
  simp only [hv, hi, hf]

theorem sanitizeObj_congr {san san' : Json → Option Json}
    (hs : ∀ x y, san x = some y → san' x = some y)
    {fs : JEntries} {y : Json} (h : sanitizeObj san fs = some y) :
    sanitizeObj san' fs = some y := by
  cases hv : getEntry "anyOf" (popMeta fs) with
  | none =>
      rw [sanitizeObj_no_anyOf hv] at h ⊢
      exact sanitizeRest_congr hs h
  | some v =>
      cases hi : iterAnyOf v with
      | none => rw [sanitizeObj_crash hv hi] at h; cases h
      | some xs =>
          cases hf : xs.filter (fun x => !typeIsNullB x) with
          | nil =>
              rw [sanitizeObj_union_nil hv hi hf] at h ⊢
              exact sanitizeRest_congr hs h
          | cons a t =>
              cases t with
              | nil =>
                  rw [sanitizeObj_collapse hv hi hf] at h ⊢
                  exact hs _ _ h
              | cons b t' =>
                  rw [sanitizeObj_union_big hv hi hf] at h ⊢
                  exact sanitizeRest_congr hs h

theorem sanitize_schema_mono :
    ∀ f x y, sanitize_schema f x = some y →
      sanitize_schema (f + 1) x = some y := by
  intro f
  induction f with
  | zero => intro x y h; cases h
  | succ g ih =>
      intro x y h
      cases x with
      | obj fs => exact sanitizeObj_congr ih h
      | null => exact h
      | bool b => exact h
      | num n => exact h
      | str s => exact h
      | arr xs => exact h

theorem sanitize_schema_mono_le {f f' : Nat} (hle : f ≤ f') :
    ∀ x y, sanitize_schema f x = some y → sanitize_schema f' x = some y := by
  induction hle with
  | refl => exact fun x y h => h
  | step _ ih =>
      exact fun x y h => sanitize_schema_mono _ x y (ih x y h)

-- The entrywise relation a successful `sanEntries` sets up between input
-- and output entry lists, and its consequences for key lookup.

theorem sanEntries_rel {san : Json → Option Json} {ns gs : JEntries}
    (h : sanEntries san ns = some gs) :
    List.Forall₂ (fun e e' => e.1 = e'.1 ∧ sanVal san e.2 = some e'.2) ns gs := by
  unfold sanEntries at h
  rw [mapMO_forall2] at h
  refine List.Forall₂.imp ?_ h
  intro e e' he
  obtain ⟨w, hw, heq⟩ := Option.map_eq_some'.mp he
  rw [← heq]
  exact ⟨rfl, hw⟩

theorem sanEntries_of_fix {san : Json → Option Json} {gs : JEntries}
    (h : ∀ e ∈ gs, sanVal san e.2 = some e.2) :
    sanEntries san gs = some gs := by
  unfold sanEntries
  induction gs with
  | nil => rfl
  | cons e t ih =>
      have he := h e (List.mem_cons_self e t)
      have ht := ih (fun a ha => h a (List.mem_cons_of_mem e ha))
      simp [mapMO, he, ht]

theorem rel_mem_right {α β : Type} {R : α → β → Prop} :
    ∀ {l : List α} {l' : List β}, List.Forall₂ R l l' →
      ∀ b ∈ l', ∃ a ∈ l, R a b := by
  intro l l' h
  induction h with
  | nil => intro b hb; cases hb
  | cons hab ht ih =>
      intro b hb
      rcases List.mem_cons.mp hb with rfl | hb
      · exact ⟨_, List.mem_cons_self _ _, hab⟩
      · obtain ⟨a, ha, hr⟩ := ih b hb
        exact ⟨a, List.mem_cons_of_mem _ ha, hr⟩

theorem rel_getEntry {san : Json → Option Json} {ns gs : JEntries}
    (h : List.Forall₂ (fun e e' => e.1 = e'.1 ∧ sanVal san e.2 = some e'.2)
      ns gs) (k : String) :
    (getEntry k ns = none → getEntry k gs = none) ∧
    (∀ v, getEntry k ns = some v →
      ∃ w, sanVal san v = some w ∧ getEntry k gs = some w) ∧
    (∀ w, getEntry k gs = some w →
      ∃ v, getEntry k ns = some v ∧ sanVal san v = some w) := by
  induction h with
  | nil =>
      refine ⟨fun _ => rfl, fun v hv => ?_, fun w hw => ?_⟩
      · exact absurd hv (by simp [getEntry])
      · exact absurd hw (by simp [getEntry])
  | cons hab ht ih =>
      rename_i e e' t t'
      obtain ⟨hk, hval⟩ := hab
      obtain ⟨k₁, v₁⟩ := e
      obtain ⟨k₂, v₂⟩ := e'
      simp only at hk hval
      subst hk
      by_cases hkk : k₁ = k
      · subst hkk
        refine ⟨fun hv => ?_, fun v hv => ?_, fun w hw => ?_⟩
        · simp [getEntry] at hv
        · simp [getEntry] at hv
          subst hv
          exact ⟨v₂, hval, by simp [getEntry]⟩
        · simp [getEntry] at hw
          subst hw
          exact ⟨v₁, by simp [getEntry], hval⟩
      · simp only [getEntry, if_neg hkk]
        exact ih

theorem rel_hasKey {san : Json → Option Json} {ns gs : JEntries}
    (h : List.Forall₂ (fun e e' => e.1 = e'.1 ∧ sanVal san e.2 = some e'.2)
      ns gs) (k : String) : hasKey k gs = hasKey k ns := by
  obtain ⟨h1, h2, h3⟩ := rel_getEntry h k
  unfold hasKey
  cases hv : getEntry k ns with
  | none => rw [h1 hv]
  | some v =>
      obtain ⟨w, _, hw⟩ := h2 v hv
      rw [hw]
      rfl

-- `closeObject`: lookup and membership facts.

theorem getEntry_closeObject_ne (k : String)
    (hk : k ≠ "additionalProperties") (ns : JEntries) :
    getEntry k (closeObject ns) = getEntry k ns := by
  unfold closeObject
  by_cases ht : typeIsObjectB ns
  · rw [if_pos ht]
    by_cases hap : hasKey "additionalProperties" ns
    · rw [if_pos hap]
    · rw [if_neg hap]
      exact getEntry_append_single_ne k _ (fun h => hk h.symm) ns _
  · rw [if_neg ht]

theorem mem_closeObject {ns : JEntries} {e : String × Json}
    (h : e ∈ closeObject ns) :
    e ∈ ns ∨ e = ("additionalProperties", .bool false) := by
  unfold closeObject at h
  by_cases ht : typeIsObjectB ns
  · rw [if_pos ht] at h
    by_cases hap : hasKey "additionalProperties" ns
    · rw [if_pos hap] at h
      exact Or.inl h
    · rw [if_neg hap] at h
      rcases List.mem_append.mp h with h | h
      · exact Or.inl h
      · exact Or.inr (List.mem_singleton.mp h)
  · rw [if_neg ht] at h
    exact Or.inl h

theorem hasKey_ap_closeObject {ns : JEntries}
    (ht : typeIsObjectB ns = true) :
    hasKey "additionalProperties" (closeObject ns) = true := by
  unfold closeObject
  rw [if_pos ht]
  by_cases hap : hasKey "additionalProperties" ns
  · rw [if_pos hap]
    exact hap
  · rw [if_neg hap]
    unfold hasKey at hap ⊢
    rw [getEntry_append]
    cases hv : getEntry "additionalProperties" ns with
    | none => rfl
    | some w => rw [hv] at hap; exact absurd rfl hap

theorem closeObject_eq_self_of_ap {ns : JEntries}
    (h : typeIsObjectB ns = true → hasKey "additionalProperties" ns = true) :
    closeObject ns = ns := by
  unfold closeObject
  by_cases ht : typeIsObjectB ns
  · rw [if_pos ht, if_pos (h ht)]
  · rw [if_neg ht]

-- Output-shape facts of the sanitizer.

theorem sanitize_nonobj : ∀ (f : Nat) (x y : Json), isObjB x = false →
    sanitize_schema f x = some y → y = x := by
  intro f x y hx h
  cases f with
  | zero => cases h
  | succ g =>
      cases x with
      | obj fs => cases hx
      | null => exact (Option.some_inj.mp h).symm
      | bool b => exact (Option.some_inj.mp h).symm
      | num n => exact (Option.some_inj.mp h).symm
      | str s => exact (Option.some_inj.mp h).symm
      | arr xs => exact (Option.some_inj.mp h).symm

theorem iterAnyOf_cases {v : Json} {xs : List Json}
    (h : iterAnyOf v = some xs) :
    (v = .arr xs ∧ xs.all isObjB = true) ∨
    (xs = [] ∧ (v = .str "" ∨ v = .obj [])) := by
  cases v with
  | arr l =>
      simp only [iterAnyOf] at h
      split at h
      · rename_i ha
        cases h
        exact Or.inl ⟨rfl, ha⟩
      · cases h
  | str s =>
      simp only [iterAnyOf] at h
      split at h
      · rename_i hs
        subst hs
        cases h
        exact Or.inr ⟨rfl, Or.inl rfl⟩
      · cases h
  | obj fs =>
      simp only [iterAnyOf] at h
      split at h
      · rename_i he
        cases h
        have hfs : fs = [] := by
          cases fs with
          | nil => rfl
          | cons e t => cases he
        subst hfs
        exact Or.inr ⟨rfl, Or.inr rfl⟩
      · cases h
  | null => cases h
  | bool b => cases h
  | num n => cases h

theorem mergeBranch_obj {ns : JEntries} {s : Json} (hs : isObjB s = true) :
    isObjB (mergeBranch ns s) = true := by
  unfold mergeBranch
  cases hd : getEntry "description" ns with
  | none => exact hs
  | some d =>
      cases s with
      | obj gs => rfl
      | null => cases hs
      | bool b => cases hs
      | num n => cases hs
      | str t => cases hs
      | arr xs => cases hs

theorem sanitize_obj_out : ∀ (f : Nat) (fs : JEntries) (y : Json),
    sanitize_schema f (.obj fs) = some y → isObjB y = true := by
  intro f
  induction f with
  | zero => intro fs y h; cases h
  | succ g ih =>
      intro fs y h
      have hbody : sanitizeObj (sanitize_schema g) fs = some y := h
      cases hv : getEntry "anyOf" (popMeta fs) with
      | none =>
          rw [sanitizeObj_no_anyOf hv] at hbody
          unfold sanitizeRest at hbody
          obtain ⟨gs, _, rfl⟩ := Option.map_eq_some'.mp hbody
          rfl
      | some v =>
          cases hi : iterAnyOf v with
          | none => rw [sanitizeObj_crash hv hi] at hbody; cases hbody
          | some xs =>
              cases hf : xs.filter (fun x => !typeIsNullB x) with
              | nil =>
                  rw [sanitizeObj_union_nil hv hi hf] at hbody
                  unfold sanitizeRest at hbody
                  obtain ⟨gs, _, rfl⟩ := Option.map_eq_some'.mp hbody
                  rfl
              | cons a t =>
                  cases t with
                  | nil =>
                      rw [sanitizeObj_collapse hv hi hf] at hbody
                      have ha : a ∈ xs.filter (fun x => !typeIsNullB x) := by
                        rw [hf]; exact List.mem_singleton.mpr rfl
                      have haxs := List.mem_of_mem_filter ha
                      have haobj : isObjB a = true := by
                        rcases iterAnyOf_cases hi with ⟨_, hall⟩ | ⟨hnil, _⟩
                        · exact List.all_eq_true.mp hall a haxs
                        · rw [hnil] at haxs; cases haxs
                      have hm :
                          isObjB (mergeBranch (popMeta fs) a) = true :=
                        mergeBranch_obj haobj
                      cases hmb : mergeBranch (popMeta fs) a with
                      | obj gs₀ =>
                          rw [hmb] at hbody
                          exact ih gs₀ y hbody
                      | null => rw [hmb] at hm; cases hm
                      | bool b => rw [hmb] at hm; cases hm
                      | num n => rw [hmb] at hm; cases hm
                      | str t => rw [hmb] at hm; cases hm
                      | arr l => rw [hmb] at hm; cases hm
                  | cons b t' =>
                      rw [sanitizeObj_union_big hv hi hf] at hbody
                      unfold sanitizeRest at hbody
                      obtain ⟨gs, _, rfl⟩ := Option.map_eq_some'.mp hbody
                      rfl

theorem sanitize_empty_obj : ∀ (f : Nat) (w : Json),
    sanitize_schema f (.obj []) = some w → w = .obj [] := by
  intro f w h
  cases f with
  | zero => cases h
  | succ g => exact (Option.some_inj.mp h).symm

-- Evaluation of the two `type`-string tests through a key lookup.

theorem typeIsNullB_obj_none {fs : JEntries}
    (hv : getEntry "type" fs = none) : typeIsNullB (.obj fs) = false := by
  simp [typeIsNullB, hv]

theorem typeIsNullB_obj_some {fs : JEntries} {v : Json}
    (hv : getEntry "type" fs = some v) :
    typeIsNullB (.obj fs) = strClass isNullStr v := by
  simp only [typeIsNullB, hv]
  cases v <;> rfl

theorem typeIsObjectB_none {ns : JEntries}
    (hv : getEntry "type" ns = none) : typeIsObjectB ns = false := by
  simp [typeIsObjectB, hv]

theorem typeIsObjectB_some {ns : JEntries} {v : Json}
    (hv : getEntry "type" ns = some v) :
    typeIsObjectB ns = strClass isObjectStr v := by
  simp only [typeIsObjectB, hv]
  cases v <;> rfl

/-- Sanitizing a value never moves it into or out of the class of strings,
and leaves strings unchanged; hence any `== "literal"` test on it is
stable. -/
theorem strClass_sanVal {g : Nat} {v w : Json}
    (hw : sanVal (sanitize_schema g) v = some w) (p : String → Bool) :
    strClass p w = strClass p v := by
  cases v with
  | str s =>
      simp only [sanVal, Option.some_inj] at hw
      rw [← hw]
  | obj fs₀ =>
      have hwo := sanitize_obj_out g fs₀ w hw
      cases w <;> simp_all [isObjB, strClass]
  | arr items =>
      simp only [sanVal] at hw
      obtain ⟨l, _, rfl⟩ := Option.map_eq_some'.mp hw
      rfl
  | null => simp only [sanVal, Option.some_inj] at hw; rw [← hw]
  | bool b => simp only [sanVal, Option.some_inj] at hw; rw [← hw]
  | num n => simp only [sanVal, Option.some_inj] at hw; rw [← hw]

theorem hasKey_setKey_ne (k k' : String) (hne : k' ≠ k) (v : Json)
    (l : JEntries) : hasKey k (setKey k' v l) = hasKey k l := by
  unfold hasKey
  rw [getEntry_setKey_ne k k' hne]

theorem typeIsNullB_jsetKey_desc (d s : Json) :
    typeIsNullB (jsetKey "description" d s) = typeIsNullB s := by
  cases s with
  | obj gs =>
      unfold jsetKey
      have h := getEntry_setKey_ne "type" "description" (by decide) d gs
      cases hv : getEntry "type" gs with
      | none => rw [typeIsNullB_obj_none (h.trans hv), typeIsNullB_obj_none hv]
      | some v =>
          rw [typeIsNullB_obj_some (h.trans hv), typeIsNullB_obj_some hv]
  | null => rfl
  | bool b => rfl
  | num n => rfl
  | str t => rfl
  | arr xs => rfl

theorem good_getEntry {fs : JEntries} (h : GoodSchema (.obj fs))
    {k : String} {v : Json} (hv : getEntry k fs = some v) : GoodSchema v :=
  good_obj_entry h (getEntry_eq_some_mem hv)

theorem good_jsetKey_desc {s d : Json} (hs : GoodSchema s)
    (hd : GoodSchema d) : GoodSchema (jsetKey "description" d s) := by
  cases s with
  | obj gs =>
      unfold jsetKey
      cases hs with
      | obj _ hc hall =>
          refine GoodSchema.obj _ ?_ ?_
          · have h1 := getEntry_setKey_ne "type" "description" (by decide) d gs
            have h2 := hasKey_setKey_ne "anyOf" "description" (by decide) d gs
            rcases hc with hc | hc
            · left
              cases hv : getEntry "type" gs with
              | none => exact typeIsNullB_obj_none (h1.trans hv)
              | some v =>
                  rw [typeIsNullB_obj_some (h1.trans hv)]
                  rw [typeIsNullB_obj_some hv] at hc
                  exact hc
            · right
              rw [h2]
              exact hc
          · intro e he
            rcases mem_setKey he with he | he
            · rw [he]
              exact hd
            · exact hall e he
  | null => exact hs
  | bool b => exact hs
  | num n => exact hs
  | str t => exact hs
  | arr xs => exact hs

/-- The `type` key is not a metadata key and not `additionalProperties`:
its lookup passes unchanged through `popMeta` and `closeObject`. -/
theorem getEntry_type_stable (fs : JEntries) :
    getEntry "type" (closeObject (popMeta fs)) = getEntry "type" fs := by
  rw [getEntry_closeObject_ne "type" (by decide),
    getEntry_popMeta "type" (by decide)]

theorem getEntry_anyOf_popMeta (fs : JEntries) :
    getEntry "anyOf" (popMeta fs) = getEntry "anyOf" fs :=
  getEntry_popMeta "anyOf" (by decide) fs

theorem getEntry_desc_popMeta (fs : JEntries) :
    getEntry "description" (popMeta fs) = getEntry "description" fs :=
  getEntry_popMeta "description" (by decide) fs

/-- The `sanitizeRest` path never changes whether the node is null-typed:
the `type` entry's value changes only within a class (`str` kept verbatim,
containers stay containers). -/
theorem sanitizeRest_typeIsNull {g : Nat} {fs : JEntries} {y : Json}
    (h : sanitizeRest (sanitize_schema g) (popMeta fs) = some y) :
    typeIsNullB y = typeIsNullB (.obj fs) := by
  unfold sanitizeRest at h
  obtain ⟨gs, hgs, rfl⟩ := Option.map_eq_some'.mp h
  have rel := sanEntries_rel hgs
  cases hv : getEntry "type" fs with
  | none =>
      have h1 := (rel_getEntry rel "type").1 ((getEntry_type_stable fs).trans hv)
      rw [typeIsNullB_obj_none h1, typeIsNullB_obj_none hv]
  | some v₀ =>
      have hns2 : getEntry "type" (closeObject (popMeta fs)) = some v₀ := by
        rw [getEntry_type_stable]
        exact hv
      obtain ⟨w, hw, hwgs⟩ := (rel_getEntry rel "type").2.1 v₀ hns2
      rw [typeIsNullB_obj_some hwgs, typeIsNullB_obj_some hv]
      exact strClass_sanVal hw isNullStr

/-- On `GoodSchema` trees sanitization never changes whether a node is
null-typed: the union-collapse case replaces the node by a branch that the
filter guarantees non-null, and a `GoodSchema` null-typed node has no
union to collapse. -/
theorem sanitize_typeIsNull : ∀ (f : Nat) (x y : Json), GoodSchema x →
    sanitize_schema f x = some y → typeIsNullB y = typeIsNullB x := by
  intro f
  induction f with
  | zero => intro x y _ h; cases h
  | succ g ih =>
      intro x y hg h
      cases x with
      | null => rw [sanitize_nonobj (g + 1) Json.null y rfl h]
      | bool b => rw [sanitize_nonobj (g + 1) (Json.bool b) y rfl h]
      | num n => rw [sanitize_nonobj (g + 1) (Json.num n) y rfl h]
      | str s => rw [sanitize_nonobj (g + 1) (Json.str s) y rfl h]
      | arr xs => rw [sanitize_nonobj (g + 1) (Json.arr xs) y rfl h]
      | obj fs =>
          have hbody : sanitizeObj (sanitize_schema g) fs = some y := h
          cases hv : getEntry "anyOf" (popMeta fs) with
          | none =>
              rw [sanitizeObj_no_anyOf hv] at hbody
              exact sanitizeRest_typeIsNull hbody
          | some v =>
              cases hi : iterAnyOf v with
              | none => rw [sanitizeObj_crash hv hi] at hbody; cases hbody
              | some xs =>
                  cases hf : xs.filter (fun x => !typeIsNullB x) with
                  | nil =>
                      rw [sanitizeObj_union_nil hv hi hf] at hbody
                      exact sanitizeRest_typeIsNull hbody
                  | cons a t =>
                      cases t with
                      | cons b t' =>
                          rw [sanitizeObj_union_big hv hi hf] at hbody
                          exact sanitizeRest_typeIsNull hbody
                      | nil =>
                          rw [sanitizeObj_collapse hv hi hf] at hbody
                          have hanyfs : getEntry "anyOf" fs = some v := by
                            rw [← getEntry_anyOf_popMeta]
                            exact hv
                          have hkey : hasKey "anyOf" fs = true := by
                            unfold hasKey
                            rw [hanyfs]
                            rfl
                          have hxnull : typeIsNullB (.obj fs) = false := by
                            rcases good_obj_cond hg with hc | hc
                            · exact hc
                            · rw [hkey] at hc; cases hc
                          have hamem : a ∈ xs.filter (fun x => !typeIsNullB x) := by
                            rw [hf]
                            exact List.mem_singleton.mpr rfl
                          have haxs : a ∈ xs := List.mem_of_mem_filter hamem
                          have hanull : typeIsNullB a = false := by
                            have := List.of_mem_filter hamem
                            simpa using this
                          rcases iterAnyOf_cases hi with ⟨hva, hall⟩ | ⟨hnil, _⟩
                          · subst hva
                            have hgoodv : GoodSchema (.arr xs) :=
                              good_getEntry hg hanyfs
                            have hgooda : GoodSchema a := good_arr_mem hgoodv haxs
                            have hgoodm :
                                GoodSchema (mergeBranch (popMeta fs) a) := by
                              unfold mergeBranch
                              cases hd : getEntry "description" (popMeta fs) with
                              | none => exact hgooda
                              | some d =>
                                  have hgd : GoodSchema d := good_getEntry hg
                                    (by rw [← getEntry_desc_popMeta]; exact hd)
                                  exact good_jsetKey_desc hgooda hgd
                            have hmnull :
                                typeIsNullB (mergeBranch (popMeta fs) a)
                                  = false := by
                              unfold mergeBranch
                              cases hd : getEntry "description" (popMeta fs) with
                              | none => exact hanull
                              | some d =>
                                  rw [typeIsNullB_jsetKey_desc]
                                  exact hanull
                            rw [ih _ y hgoodm hbody, hmnull, hxnull]
                          · rw [hnil] at haxs; cases haxs

theorem mapMO_of_id {α : Type} {g : α → Option α} :
    ∀ {l : List α}, (∀ a ∈ l, g a = some a) → mapMO g l = some l := by
  intro l
  induction l with
  | nil => intro _; rfl
  | cons a t ih =>
      intro h
      have ha := h a (List.mem_cons_self a t)
      have ht := ih (fun b hb => h b (List.mem_cons_of_mem a hb))
      simp [mapMO, ha, ht]

theorem forall2_filter {α β : Type} {R : α → β → Prop} {p : α → Bool}
    {q : β → Bool} :
    ∀ {l : List α} {l' : List β}, List.Forall₂ R l l' →
      (∀ a b, R a b → p a = q b) →
      List.Forall₂ R (l.filter p) (l'.filter q) := by
  intro l l' h hpq
  induction h with
  | nil => exact List.Forall₂.nil
  | cons hab ht ih =>
      rename_i a b ta tb
      by_cases hp : p a
      · have hq : q b = true := (hpq a b hab) ▸ hp
        rw [List.filter_cons_of_pos hp, List.filter_cons_of_pos hq]
        exact List.Forall₂.cons hab ih
      · have hq : q b = false := by
          rw [← hpq a b hab]
          exact Bool.not_eq_true _ ▸ (by simpa using hp)
        rw [List.filter_cons_of_neg hp,
          List.filter_cons_of_neg (by rw [hq]; exact Bool.false_ne_true)]
        exact ih

/-- A value already produced by the sanitizer's recursion loop is a fixed
point of that loop (given the inner fixed-point hypothesis `hfix`). -/
theorem sanVal_fix {g : Nat}
    (hfix : ∀ x y, GoodSchema x → sanitize_schema g x = some y →
      sanitize_schema g y = some y)
    {v w : Json} (hgood : GoodSchema v)
    (hw : sanVal (sanitize_schema g) v = some w) :
    sanVal (sanitize_schema g) w = some w := by
  cases v with
  | obj fs₀ =>
      have hobj := sanitize_obj_out g fs₀ w hw
      have hsan : sanitize_schema g w = some w := hfix _ w hgood hw
      cases w with
      | obj gs => exact hsan
      | null => cases hobj
      | bool b => cases hobj
      | num n => cases hobj
      | str s => cases hobj
      | arr l => cases hobj
  | arr items =>
      simp only [sanVal] at hw
      obtain ⟨items', hitems, rfl⟩ := Option.map_eq_some'.mp hw
      have hrel := (mapMO_forall2 _ items items').mp hitems
      simp only [sanVal]
      have hfix' : mapMO (sanListItem (sanitize_schema g)) items'
          = some items' := by
        refine mapMO_of_id ?_
        intro b hb
        obtain ⟨a, ha, hab⟩ := rel_mem_right hrel b hb
        cases a with
        | obj afs =>
            have hobj := sanitize_obj_out g afs b hab
            have hsan : sanitize_schema g b = some b :=
              hfix _ b (good_arr_mem hgood ha) hab
            cases b with
            | obj bgs => exact hsan
            | null => cases hobj
            | bool c => cases hobj
            | num n => cases hobj
            | str s => cases hobj
            | arr l => cases hobj
        | null => cases hab; rfl
        | bool c => cases hab; rfl
        | num n => cases hab; rfl
        | str s => cases hab; rfl
        | arr l => cases hab; rfl
      rw [hfix']
      rfl
  | null => cases hw; rfl
  | bool b => cases hw; rfl
  | num n => cases hw; rfl
  | str s => cases hw; rfl

/-- Pointwise strengthening of the recursion-loop relation on a union's
branch list: branches stay dicts and keep their null-typedness. -/
theorem sanItems_strengthen {g : Nat} :
    ∀ {xs xs' : List Json},
      List.Forall₂
        (fun a b => sanListItem (sanitize_schema g) a = some b) xs xs' →
      (∀ a ∈ xs, isObjB a = true ∧ GoodSchema a) →
      xs'.all isObjB = true ∧
      List.Forall₂ (fun a b => typeIsNullB a = typeIsNullB b) xs xs' := by
  intro xs xs' h
  induction h with
  | nil => exact fun _ => ⟨rfl, List.Forall₂.nil⟩
  | cons hab ht ih =>
      rename_i a b ta tb
      intro hyp
      obtain ⟨haobj, hagood⟩ := hyp a (List.mem_cons_self a ta)
      obtain ⟨htall, htrel⟩ :=
        ih (fun c hc => hyp c (List.mem_cons_of_mem a hc))
      cases a with
      | obj afs =>
          have hb : sanitize_schema g (.obj afs) = some b := hab
          have hbobj := sanitize_obj_out g afs b hb
          have hbnull := sanitize_typeIsNull g _ b hagood hb
          constructor
          · simp only [List.all_cons, htall, Bool.and_true]
            exact hbobj
          · exact List.Forall₂.cons hbnull.symm htrel
      | null => cases haobj
      | bool c => cases haobj
      | num n => cases haobj
      | str s => cases haobj
      | arr l => cases haobj

/-- The branch merged in the union-collapse case of the sanitizer is a
`GoodSchema` tree whenever the input node is. -/
theorem good_merge_context {fs : JEntries} {v : Json} {xs : List Json}
    {a : Json} (hg : GoodSchema (.obj fs))
    (hv : getEntry "anyOf" (popMeta fs) = some v)
    (hva : v = .arr xs) (haxs : a ∈ xs) :
    GoodSchema (mergeBranch (popMeta fs) a) := by
  subst hva
  have hanyfs : getEntry "anyOf" fs = some (.arr xs) := by
    rw [← getEntry_anyOf_popMeta]
    exact hv
  have hgooda : GoodSchema a := good_arr_mem (good_getEntry hg hanyfs) haxs
  unfold mergeBranch
  cases hd : getEntry "description" (popMeta fs) with
  | none => exact hgooda
  | some d =>
      exact good_jsetKey_desc hgooda
        (good_getEntry hg (by rw [← getEntry_desc_popMeta]; exact hd))

/-- The rest path of the sanitizer produces entry lists that the second
pass leaves untouched: no metadata keys survive, object-typed outputs
carry `additionalProperties`, and every entry value is a fixed point. -/
theorem sanitizeRest_fix {g : Nat} {fs : JEntries} {gs : JEntries}
    (ih : ∀ x y, GoodSchema x → sanitize_schema g x = some y →
      sanitize_schema g y = some y)
    (hg : GoodSchema (.obj fs))
    (hgs : sanEntries (sanitize_schema g) (closeObject (popMeta fs))
      = some gs) :
    popMeta gs = gs ∧ closeObject gs = gs ∧
    sanEntries (sanitize_schema g) gs = some gs := by
  have rel := sanEntries_rel hgs
  have hmem : ∀ e' ∈ gs, ∃ e ∈ closeObject (popMeta fs),
      e.1 = e'.1 ∧ sanVal (sanitize_schema g) e.2 = some e'.2 := by
    intro e' he'
    obtain ⟨e, he, hr⟩ := rel_mem_right rel e' he'
    exact ⟨e, he, hr⟩
  have hpop : popMeta gs = gs := by
    refine popMeta_eq_self ?_
    intro e' he'
    obtain ⟨e, he, hk, _⟩ := hmem e' he'
    rcases mem_closeObject he with he2 | he2
    · rw [← hk]
      exact (mem_popMeta he2).1
    · rw [← hk, he2]
      decide
  have hclose : closeObject gs = gs := by
    refine closeObject_eq_self_of_ap ?_
    intro hto
    cases hty : getEntry "type" gs with
    | none => rw [typeIsObjectB_none hty] at hto; cases hto
    | some w =>
        rw [typeIsObjectB_some hty] at hto
        obtain ⟨v₀, hv₀, hw⟩ := (rel_getEntry rel "type").2.2 w hty
        have hcls := strClass_sanVal hw isObjectStr
        have hvfs : getEntry "type" (popMeta fs) = some v₀ := by
          rw [getEntry_popMeta "type" (by decide)]
          rw [← getEntry_type_stable fs]
          exact hv₀
        have hns2 : typeIsObjectB (popMeta fs) = true := by
          rw [typeIsObjectB_some hvfs, ← hcls]
          exact hto
        have hap := hasKey_ap_closeObject hns2
        rw [rel_hasKey rel "additionalProperties"]
        exact hap
  refine ⟨hpop, hclose, ?_⟩
  refine sanEntries_of_fix ?_
  intro e' he'
  obtain ⟨e, he, hk, hv⟩ := hmem e' he'
  rcases mem_closeObject he with he2 | he2
  · exact sanVal_fix ih (good_obj_entry hg (mem_popMeta he2).2) hv
  · rw [he2] at hv
    simp only [sanVal, Option.some_inj] at hv
    rw [← hv]
    rfl

/-- Rest path taken with a union present but not collapsible: the second
pass sees a union with the same number of non-null branches and again does
not collapse. -/
theorem rest_anyOf_fix {g : Nat} {fs : JEntries} {v : Json} {xs : List Json}
    {y : Json}
    (ih : ∀ x y, GoodSchema x → sanitize_schema g x = some y →
      sanitize_schema g y = some y)
    (hg : GoodSchema (.obj fs))
    (hv : getEntry "anyOf" (popMeta fs) = some v)
    (hi : iterAnyOf v = some xs)
    (hshape : (xs.filter (fun x => !typeIsNullB x)).length ≠ 1)
    (hbody : sanitizeRest (sanitize_schema g) (popMeta fs) = some y) :
    sanitize_schema (g + 1) y = some y := by
  unfold sanitizeRest at hbody
  obtain ⟨gs, hgs, rfl⟩ := Option.map_eq_some'.mp hbody
  obtain ⟨hpop, hclose, hfixE⟩ := sanitizeRest_fix ih hg hgs
  have rel := sanEntries_rel hgs
  have hanyns2 : getEntry "anyOf" (closeObject (popMeta fs)) = some v := by
    rw [getEntry_closeObject_ne "anyOf" (by decide)]
    exact hv
  obtain ⟨w, hwv, hanygs⟩ := (rel_getEntry rel "anyOf").2.1 v hanyns2
  have hv₂ : getEntry "anyOf" (popMeta gs) = some w := by
    rw [hpop]
    exact hanygs
  have hrest : sanitizeRest (sanitize_schema g) (popMeta gs)
      = some (.obj gs) := by
    unfold sanitizeRest
    rw [hpop, hclose, hfixE]
    rfl
  show sanitizeObj (sanitize_schema g) gs = some (.obj gs)
  rcases iterAnyOf_cases hi with ⟨hva, hall⟩ | ⟨hnil, hvs⟩
  · subst hva
    simp only [sanVal] at hwv
    obtain ⟨xs', hxs', rfl⟩ := Option.map_eq_some'.mp hwv
    have hrel2 := (mapMO_forall2 _ xs xs').mp hxs'
    have hanyfs : getEntry "anyOf" fs = some (.arr xs) := by
      rw [← getEntry_anyOf_popMeta]
      exact hv
    have hGoods : ∀ a ∈ xs, isObjB a = true ∧ GoodSchema a := by
      intro a ha
      refine ⟨?_, good_arr_mem (good_getEntry hg hanyfs) ha⟩
      have := List.all_eq_true.mp hall a ha
      simpa using this
    obtain ⟨hall', hnullrel⟩ := sanItems_strengthen hrel2 hGoods
    have hi₂ : iterAnyOf (.arr xs') = some xs' := by
      simp [iterAnyOf, hall']
    have hfrel :
        List.Forall₂ (fun a b => typeIsNullB a = typeIsNullB b)
          (xs.filter (fun x => !typeIsNullB x))
          (xs'.filter (fun x => !typeIsNullB x)) :=
      forall2_filter hnullrel
        (fun a b hab => by simp only [hab])
    have hlen := List.Forall₂.length_eq hfrel
    have hshape' : (xs'.filter (fun x => !typeIsNullB x)).length ≠ 1 := by
      rw [← hlen]
      exact hshape
    cases hf' : xs'.filter (fun x => !typeIsNullB x) with
    | nil =>
        rw [sanitizeObj_union_nil hv₂ hi₂ hf']
        exact hrest
    | cons a' t'' =>
        cases t'' with
        | nil =>
            rw [hf'] at hshape'
            exact absurd rfl hshape'
        | cons b' t₃ =>
            rw [sanitizeObj_union_big hv₂ hi₂ hf']
            exact hrest
  · subst hnil
    rcases hvs with hvs | hvs
    · subst hvs
      simp only [sanVal, Option.some_inj] at hwv
      subst hwv
      rw [sanitizeObj_union_nil hv₂ (by rfl) (by rfl)]
      exact hrest
    · subst hvs
      have hw0 := sanitize_empty_obj g w hwv
      subst hw0
      rw [sanitizeObj_union_nil hv₂ (by rfl) (by rfl)]
      exact hrest

/-- Fuel-indexed fixed-point lemma behind the amended C1: a first-pass
output over a `GoodSchema` input is reproduced verbatim by a second pass
at the same recursion depth. -/
theorem sanitize_schema_fix : ∀ (f : Nat) (x y : Json), GoodSchema x →
    sanitize_schema f x = some y → sanitize_schema f y = some y := by
  intro f
  induction f with
  | zero => intro x y _ h; cases h
  | succ g ih =>
      intro x y hg h
      cases x with
      | null =>
          have hy := sanitize_nonobj (g + 1) Json.null y rfl h
          rw [hy] at h ⊢
          exact h
      | bool b =>
          have hy := sanitize_nonobj (g + 1) (Json.bool b) y rfl h
          rw [hy] at h ⊢
          exact h
      | num n =>
          have hy := sanitize_nonobj (g + 1) (Json.num n) y rfl h
          rw [hy] at h ⊢
          exact h
      | str s =>
          have hy := sanitize_nonobj (g + 1) (Json.str s) y rfl h
          rw [hy] at h ⊢
          exact h
      | arr xs =>
          have hy := sanitize_nonobj (g + 1) (Json.arr xs) y rfl h
          rw [hy] at h ⊢
          exact h
      | obj fs =>
          have hbody : sanitizeObj (sanitize_schema g) fs = some y := h
          cases hv : getEntry "anyOf" (popMeta fs) with
          | none =>
              rw [sanitizeObj_no_anyOf hv] at hbody
              unfold sanitizeRest at hbody
              obtain ⟨gs, hgs, rfl⟩ := Option.map_eq_some'.mp hbody
              obtain ⟨hpop, hclose, hfixE⟩ := sanitizeRest_fix ih hg hgs
              have rel := sanEntries_rel hgs
              have hanyns2 :
                  getEntry "anyOf" (closeObject (popMeta fs)) = none := by
                rw [getEntry_closeObject_ne "anyOf" (by decide)]
                exact hv
              have hv₂ : getEntry "anyOf" (popMeta gs) = none := by
                rw [hpop]
                exact (rel_getEntry rel "anyOf").1 hanyns2
              show sanitizeObj (sanitize_schema g) gs = some (.obj gs)
              rw [sanitizeObj_no_anyOf hv₂]
              unfold sanitizeRest
              rw [hpop, hclose, hfixE]
              rfl
          | some v =>
              cases hi : iterAnyOf v with
              | none => rw [sanitizeObj_crash hv hi] at hbody; cases hbody
              | some xs =>
                  cases hf : xs.filter (fun x => !typeIsNullB x) with
                  | nil =>
                      rw [sanitizeObj_union_nil hv hi hf] at hbody
                      exact rest_anyOf_fix ih hg hv hi (by rw [hf]; simp)
                        hbody
                  | cons a t =>
                      cases t with
                      | nil =>
                          rw [sanitizeObj_collapse hv hi hf] at hbody
                          have haxs : a ∈ xs := List.mem_of_mem_filter
                            (by rw [hf]; exact List.mem_singleton.mpr rfl)
                          rcases iterAnyOf_cases hi with ⟨hva, _⟩ |
                            ⟨hnil, _⟩
                          · have hgoodm := good_merge_context hg hv hva haxs
                            exact sanitize_schema_mono g y y
                              (ih _ y hgoodm hbody)
                          · rw [hnil] at haxs; cases haxs
                      | cons b t' =>
                          rw [sanitizeObj_union_big hv hi hf] at hbody
                          exact rest_anyOf_fix ih hg hv hi
                            (by rw [hf]; simp) hbody

/-- Amended C1: on every input tree in which no dict node carries both
`"type": "null"` and a union (`anyOf`) key, the sanitizer is idempotent —
`sanitize_schema(sanitize_schema(x))` is the very same tree as
`sanitize_schema(x)` (entry order included, hence also under Python `==`).
On arbitrary trees idempotence fails; see the counterexample. -/
theorem sanitize_schema_idempotent_on_good (x y : Json)
    (hg : GoodSchema x) (h : SanitizeTo x y) : SanitizeTo y y := by
  obtain ⟨f, hf⟩ := h
  exact ⟨f, sanitize_schema_fix f x y hg hf⟩

/-- Witness for the amended C1 on a concrete tree: a titled object node
whose sanitized form (title popped, `additionalProperties` added) is a
fixed point. -/
theorem sanitize_schema_idempotent_on_good_witness :
    GoodSchema (.obj [("title", .num 1), ("type", .str "object")]) ∧
    SanitizeTo (.obj [("title", .num 1), ("type", .str "object")])
      (.obj [("type", .str "object"),
             ("additionalProperties", .bool false)]) ∧
    SanitizeTo
      (.obj [("type", .str "object"), ("additionalProperties", .bool false)])
      (.obj [("type", .str "object"),
             ("additionalProperties", .bool false)]) := by
  have hgood : GoodSchema (.obj [("title", .num 1),
      ("type", .str "object")]) := by
    refine GoodSchema.obj _ (Or.inl rfl) ?_
    intro e he
    simp only [List.mem_cons, List.not_mem_nil, or_false] at he
    rcases he with he | he
    · rw [he]; exact GoodSchema.num 1
    · rw [he]; exact GoodSchema.str "object"
  have h1 : SanitizeTo (.obj [("title", .num 1), ("type", .str "object")])
      (.obj [("type", .str "object"),
             ("additionalProperties", .bool false)]) := ⟨2, rfl⟩
  exact ⟨hgood, h1,
    sanitize_schema_idempotent_on_good _ _ hgood h1⟩

/-- C4: a union of exactly one non-null branch plus a null branch
sanitizes to that branch, for arbitrary primitive branch types; when the
enclosing node carries its own description, that description replaces the
branch's, and when it does not, the branch's own description survives. -/
theorem sanitize_optional_union_collapse (t : String)
    (ht : t ∈ primitiveTypes) (db d : String) :
    SanitizeTo (unionWithParentDesc t db d)
      (.obj [("type", .str t), ("description", .str d)]) ∧
    SanitizeTo (unionNoParentDesc t db)
      (.obj [("type", .str t), ("description", .str db)]) := by
  simp only [primitiveTypes, List.mem_cons, List.not_mem_nil, or_false] at ht
  rcases ht with rfl | rfl | rfl | rfl <;>
    exact ⟨⟨2, rfl⟩, ⟨2, rfl⟩⟩

/-- Witness for C4 at the concrete primitive type `"string"`. -/
theorem sanitize_optional_union_collapse_witness :
    SanitizeTo (unionWithParentDesc "string" "branch doc" "outer doc")
      (.obj [("type", .str "string"), ("description", .str "outer doc")]) ∧
    SanitizeTo (unionNoParentDesc "string" "branch doc")
      (.obj [("type", .str "string"), ("description", .str "branch doc")]) :=
  sanitize_optional_union_collapse "string" (by simp [primitiveTypes])
    "branch doc" "outer doc"

/-- C1 counterexample: `sanitize_schema` is not idempotent.  On
`c1ExInput` — a union whose branches are both null-typed, the first being
itself a collapsible optional union — one pass produces `c1ExOnce`, which
still contains a collapsible union, and a second pass collapses it to
`c1ExTwice`, a different value under Python `==`. -/
theorem sanitize_not_idempotent :
    SanitizeTo c1ExInput c1ExOnce ∧ SanitizeTo c1ExOnce c1ExTwice ∧
    ¬ PyEq c1ExTwice c1ExOnce := by
  refine ⟨⟨10, rfl⟩, ⟨10, rfl⟩, fun h => ?_⟩
  cases h with
  | obj _ _ hkeys _ =>
    have h1 := hkeys "anyOf"
    simp [c1ExTwice, c1ExOnce, hasKey, getEntry] at h1

-- Loop-level helper lemmas.

/-- Unfolding one loop iteration that found calls, handled them all
without a fatal exception, and sent the batch. -/
theorem run_succ_step {Resp Msg Hist : Type} (cfg : LoopConfig)
    (registry : Option (List (String × LoopToolDef)))
    (A : ToolAdapter Resp Msg Hist) (f : Nat) (resp : Resp) (hist : Hist)
    (results : List ToolCallResult)
    (hne : (A.get_tool_calls resp).isEmpty = false)
    (hres : mapME (handle_tool_call cfg registry) (A.get_tool_calls resp)
      = .ok results)
    (hmsgs : (results.map A.build_tool_response_message).isEmpty = false) :
    run cfg registry A (f + 1) resp hist =
      run cfg registry A f
        (A.send_tool_responses (results.map A.build_tool_response_message)
          (A.record_assistant_message resp hist)).1
        (A.send_tool_responses (results.map A.build_tool_response_message)
          (A.record_assistant_message resp hist)).2 := by
  simp only [run, hne, Bool.false_eq_true, if_false, hres, hmsgs]

theorem runCount_le {Resp Msg Hist : Type} (cfg : LoopConfig)
    (registry : Option (List (String × LoopToolDef)))
    (A : ToolAdapter Resp Msg Hist) :
    ∀ (n : Nat) (resp : Resp) (hist : Hist),
      runCount cfg registry A n resp hist ≤ n := by
  intro n
  induction n with
  | zero => intro resp hist; exact Nat.le_refl 0
  | succ f ih =>
      intro resp hist
      simp only [runCount]
      by_cases hne : (A.get_tool_calls resp).isEmpty
      · simp only [hne, if_true]
        omega
      · simp only [hne, Bool.false_eq_true, if_false]
        split
        · omega
        · rename_i results hres
          by_cases hmsgs :
              (results.map A.build_tool_response_message).isEmpty
          · simp only [hmsgs, if_true]
            omega
          · simp only [hmsgs, Bool.false_eq_true, if_false]
            have := ih (A.send_tool_responses
              (results.map A.build_tool_response_message)
              (A.record_assistant_message resp hist)).1
              (A.send_tool_responses
                (results.map A.build_tool_response_message)
                (A.record_assistant_message resp hist)).2
            omega

/-- C6: a tool-call request naming a tool absent from the registry (or
arriving with no registry at all) produces the result payload
`{"error": "Tool '<name>' not found in registry."}` for that call, and the
handler returns it as a value — no exception is raised. -/
theorem tool_not_found_yields_error_payload (cfg : LoopConfig)
    (registry : Option (List (String × LoopToolDef))) (tc : ToolCallRequest)
    (h : regLookup registry tc.name = none) :
    handle_tool_call cfg registry tc = .ok
      ⟨tc.name, .error ("Tool '" ++ tc.name ++ "' not found in registry."),
        tc.call_id⟩ := by
  unfold handle_tool_call
  simp only [h]

/-- Witness for C6: the fixture registry holds no tool named `ghost`. -/
theorem tool_not_found_yields_error_payload_witness :
    regLookup (some regEx) "ghost" = none ∧
    handle_tool_call cfgEx (some regEx) tcGhost =
      .ok ⟨"ghost", .error "Tool 'ghost' not found in registry.",
        some "id-2"⟩ := by
  refine ⟨rfl, ?_⟩
  have h := tool_not_found_yields_error_payload cfgEx (some regEx)
    tcGhost rfl
  exact h

/-- C7: in one loop iteration that extracted calls and hit no fatal
exception, the loop hands the adapter's send exactly one result message
per extracted call, and the i-th result carries the correlation id of the
i-th request. -/
theorem run_sends_one_result_per_call {Resp Msg Hist : Type}
    (cfg : LoopConfig) (registry : Option (List (String × LoopToolDef)))
    (A : ToolAdapter Resp Msg Hist) (f : Nat) (resp : Resp) (hist : Hist)
    (hne : A.get_tool_calls resp ≠ [])
    (hok : ∀ tc ∈ A.get_tool_calls resp,
      ∃ r, handle_tool_call cfg registry tc = .ok r) :
    ∃ results : List ToolCallResult,
      mapME (handle_tool_call cfg registry) (A.get_tool_calls resp)
        = .ok results ∧
      results.length = (A.get_tool_calls resp).length ∧
      (results.map A.build_tool_response_message).length
        = (A.get_tool_calls resp).length ∧
      (∀ (i : Nat) (h1 : i < (A.get_tool_calls resp).length)
          (h2 : i < results.length),
        (results.get ⟨i, h2⟩).call_id
          = ((A.get_tool_calls resp).get ⟨i, h1⟩).call_id) ∧
      run cfg registry A (f + 1) resp hist =
        run cfg registry A f
          (A.send_tool_responses
            (results.map A.build_tool_response_message)
            (A.record_assistant_message resp hist)).1
          (A.send_tool_responses
            (results.map A.build_tool_response_message)
            (A.record_assistant_message resp hist)).2 := by
  obtain ⟨results, hres⟩ := mapME_ok_of_all hok
  have hrel := (mapME_forall2 _ _ _).mp hres
  have hlen := List.Forall₂.length_eq hrel
  have hlen' : results.length = (A.get_tool_calls resp).length := hlen.symm
  refine ⟨results, hres, hlen', by rw [List.length_map, hlen'], ?_, ?_⟩
  · intro i h1 h2
    have hget := (List.forall₂_iff_get.mp hrel).2 i h1 h2
    exact (handle_tool_call_ids hget).1
  · have hneb : (A.get_tool_calls resp).isEmpty = false := by
      cases hcalls : A.get_tool_calls resp with
      | nil => exact absurd hcalls hne
      | cons a t => rfl
    have hrne : results ≠ [] := by
      intro hr
      rw [hr] at hlen'
      cases hcalls : A.get_tool_calls resp with
      | nil => exact hne hcalls
      | cons a t => rw [hcalls] at hlen'; cases hlen'
    have hmsgs : (results.map A.build_tool_response_message).isEmpty
        = false := by
      cases results with
      | nil => exact absurd rfl hrne
      | cons a t => rfl
    exact run_succ_step cfg registry A f resp hist results hneb hres hmsgs

/-- Witness for C7 on the fixture adapter: two extracted calls, two
results, ids preserved. -/
theorem run_sends_one_result_per_call_witness :
    ∃ results : List ToolCallResult,
      mapME (handle_tool_call cfgEx (some regEx))
        (adapterEx.get_tool_calls 0) = .ok results ∧
      results.length = (adapterEx.get_tool_calls 0).length ∧
      (results.map adapterEx.build_tool_response_message).length
        = (adapterEx.get_tool_calls 0).length ∧
      (∀ (i : Nat) (h1 : i < (adapterEx.get_tool_calls 0).length)
          (h2 : i < results.length),
        (results.get ⟨i, h2⟩).call_id
          = ((adapterEx.get_tool_calls 0).get ⟨i, h1⟩).call_id) ∧
      run cfgEx (some regEx) adapterEx (3 + 1) 0 [] =
        run cfgEx (some regEx) adapterEx 3
          (adapterEx.send_tool_responses
            (results.map adapterEx.build_tool_response_message)
            (adapterEx.record_assistant_message 0 [])).1
          (adapterEx.send_tool_responses
            (results.map adapterEx.build_tool_response_message)
            (adapterEx.record_assistant_message 0 [])).2 := by
  refine run_sends_one_result_per_call cfgEx (some regEx) adapterEx 3 0 []
    (by intro h; cases h) ?_
  intro tc htc
  rcases List.mem_cons.mp htc with rfl | htc
  · exact ⟨⟨"echo", .result (.str "ok"), some "id-1"⟩, rfl⟩
  · rcases List.mem_cons.mp htc with rfl | htc
    · exact ⟨⟨"ghost", .error "Tool 'ghost' not found in registry.",
        some "id-2"⟩, rfl⟩
    · cases htc

/-- C10 (implicit): in one loop iteration the batch handed to the
adapter's send is the `build_tool_response_message` image, in order, of
the handler results of the extracted requests in extraction order — the
i-th sent message always stems from the i-th extracted request (the
embedded `asyncio.gather` returns results in task-submission order). -/
theorem run_send_preserves_request_order {Resp Msg Hist : Type}
    (cfg : LoopConfig) (registry : Option (List (String × LoopToolDef)))
    (A : ToolAdapter Resp Msg Hist) (f : Nat) (resp : Resp) (hist : Hist)
    (hne : A.get_tool_calls resp ≠ [])
    (hok : ∀ tc ∈ A.get_tool_calls resp,
      ∃ r, handle_tool_call cfg registry tc = .ok r) :
    ∃ results : List ToolCallResult,
      List.Forall₂
        (fun tc r => handle_tool_call cfg registry tc = .ok r)
        (A.get_tool_calls resp) results ∧
      run cfg registry A (f + 1) resp hist =
        run cfg registry A f
          (A.send_tool_responses
            (results.map A.build_tool_response_message)
            (A.record_assistant_message resp hist)).1
          (A.send_tool_responses
            (results.map A.build_tool_response_message)
            (A.record_assistant_message resp hist)).2 := by
  obtain ⟨results, hres⟩ := mapME_ok_of_all hok
  have hrel := (mapME_forall2 _ _ _).mp hres
  have hlen := List.Forall₂.length_eq hrel
  have hneb : (A.get_tool_calls resp).isEmpty = false := by
    cases hcalls : A.get_tool_calls resp with
    | nil => exact absurd hcalls hne
    | cons a t => rfl
  have hmsgs : (results.map A.build_tool_response_message).isEmpty
      = false := by
    cases hr : results with
    | nil =>
        rw [hr] at hlen
        cases hcalls : A.get_tool_calls resp with
        | nil => exact absurd hcalls hne
        | cons a t => rw [hcalls] at hlen; cases hlen
    | cons a t => rfl
  exact ⟨results, hrel,
    run_succ_step cfg registry A f resp hist results hneb hres hmsgs⟩

/-- Witness for C10 on the fixture adapter. -/
theorem run_send_preserves_request_order_witness :
    ∃ results : List ToolCallResult,
      List.Forall₂
        (fun tc r => handle_tool_call cfgEx (some regEx) tc = .ok r)
        (adapterEx.get_tool_calls 0) results ∧
      run cfgEx (some regEx) adapterEx (2 + 1) 0 [] =
        run cfgEx (some regEx) adapterEx 2
          (adapterEx.send_tool_responses
            (results.map adapterEx.build_tool_response_message)
            (adapterEx.record_assistant_message 0 [])).1
          (adapterEx.send_tool_responses
            (results.map adapterEx.build_tool_response_message)
            (adapterEx.record_assistant_message 0 [])).2 := by
  refine run_send_preserves_request_order cfgEx (some regEx) adapterEx 2 0 []
    (by intro h; cases h) ?_
  intro tc htc
  rcases List.mem_cons.mp htc with rfl | htc
  · exact ⟨⟨"echo", .result (.str "ok"), some "id-1"⟩, rfl⟩
  · rcases List.mem_cons.mp htc with rfl | htc
    · exact ⟨⟨"ghost", .error "Tool 'ghost' not found in registry.",
        some "id-2"⟩, rfl⟩
    · cases htc

/-- C8: a call whose implementation exceeds the per-call timeout yields a
recoverable error result whose message contains "timed out" (the handler
returns it as a value, raising nothing), and every sibling call of any
batch is handled exactly as it would be alone — the embedded batch is the
pointwise image of the independent per-call handler. -/
theorem timeout_yields_recoverable_error (cfg : LoopConfig)
    (registry : Option (List (String × LoopToolDef)))
    (tc : ToolCallRequest) (td : LoopToolDef)
    (args args2 : List (String × Json))
    (hreg : regLookup registry tc.name = some td)
    (hnorm : normalize_function_args cfg tc.name tc.arguments = .ok args)
    (hval : (match td.args_model with
             | none => Except.ok args
             | some vm => vm args) = .ok args2)
    (htime : td.func args2 = .timesOut) :
    (handle_tool_call cfg registry tc = .ok
      ⟨tc.name, .error ("Tool execution timed out after "
        ++ cfg.tool_timeout_repr ++ " seconds."), tc.call_id⟩) ∧
    (∃ p q, "Tool execution timed out after "
        ++ cfg.tool_timeout_repr ++ " seconds." = p ++ "timed out" ++ q) ∧
    (∀ (tcs : List ToolCallRequest) (results : List ToolCallResult),
      mapME (handle_tool_call cfg registry) tcs = .ok results →
      List.Forall₂
        (fun tc' r => handle_tool_call cfg registry tc' = .ok r)
        tcs results) := by
  refine ⟨?_, ?_, ?_⟩
  · unfold handle_tool_call
    simp only [hreg, hnorm, hval]
    have hex : execute_tool cfg td.func args2 = .error (.toolExecutionError,
        "Tool execution timed out after " ++ cfg.tool_timeout_repr
          ++ " seconds.") := by
      unfold execute_tool
      simp only [htime]
    simp only [hex]
    rfl
  · refine ⟨"Tool execution ",
      " after " ++ cfg.tool_timeout_repr ++ " seconds.", ?_⟩
    rw [show "Tool execution " ++ "timed out"
        = "Tool execution timed out" from rfl]
    rw [← String.append_assoc "Tool execution timed out"
      (" after " ++ cfg.tool_timeout_repr) " seconds."]
    rw [← String.append_assoc "Tool execution timed out" " after "
      cfg.tool_timeout_repr]
    rw [show "Tool execution timed out" ++ " after "
        = "Tool execution timed out after " from rfl]
  · intro tcs results hres
    exact (mapME_forall2 _ _ _).mp hres

/-- Witness for C8: the fixture tool `slow` times out; a batch containing
it and a sibling still handles the sibling normally. -/
theorem timeout_yields_recoverable_error_witness :
    (handle_tool_call cfgEx (some regEx) tcSlow = .ok
      ⟨"slow", .error ("Tool execution timed out after "
        ++ "180.0" ++ " seconds."), some "id-3"⟩) ∧
    (∃ p q, "Tool execution timed out after "
        ++ "180.0" ++ " seconds." = p ++ "timed out" ++ q) ∧
    (∀ (tcs : List ToolCallRequest) (results : List ToolCallResult),
      mapME (handle_tool_call cfgEx (some regEx)) tcs = .ok results →
      List.Forall₂
        (fun tc' r => handle_tool_call cfgEx (some regEx) tc' = .ok r)
        tcs results) :=
  timeout_yields_recoverable_error cfgEx (some regEx) tcSlow tdSlow
    [] [] rfl rfl rfl rfl

/-- C9: the loop executes at most `max_function_loops` iterations
(default 5); when every response keeps producing tool calls and no fatal
exception occurs, the budget is exhausted and the loop returns — without
raising — exactly the response obtained from the last send, unmodified
(the `n`-fold iterate of the single-iteration step). -/
theorem run_capped_returns_last_response {Resp Msg Hist : Type}
    (cfg : LoopConfig) (registry : Option (List (String × LoopToolDef)))
    (A : ToolAdapter Resp Msg Hist) (n : Nat) (resp : Resp) (hist : Hist)
    (hcalls : ∀ r : Resp, A.get_tool_calls r ≠ [])
    (hok : ∀ (r : Resp), ∀ tc ∈ A.get_tool_calls r,
      ∃ res, handle_tool_call cfg registry tc = .ok res) :
    run cfg registry A n resp hist =
      .ok ((loopStep cfg registry A)^[n] (resp, hist)) ∧
    runCount cfg registry A n resp hist ≤ n ∧
    default_max_function_loops = 5 := by
  refine ⟨?_, runCount_le cfg registry A n resp hist, rfl⟩
  induction n generalizing resp hist with
  | zero => rfl
  | succ f ih =>
      obtain ⟨results, hres⟩ := mapME_ok_of_all (hok resp)
      have hrel := (mapME_forall2 _ _ _).mp hres
      have hlen := List.Forall₂.length_eq hrel
      have hneb : (A.get_tool_calls resp).isEmpty = false := by
        cases hc : A.get_tool_calls resp with
        | nil => exact absurd hc (hcalls resp)
        | cons a t => rfl
      have hmsgs : (results.map A.build_tool_response_message).isEmpty
          = false := by
        cases hr : results with
        | nil =>
            rw [hr] at hlen
            cases hc : A.get_tool_calls resp with
            | nil => exact absurd hc (hcalls resp)
            | cons a t => rw [hc] at hlen; cases hlen
        | cons a t => rfl
      have hstep := run_succ_step cfg registry A f resp hist results
        hneb hres hmsgs
      have hloop : loopStep cfg registry A (resp, hist) =
          A.send_tool_responses (results.map A.build_tool_response_message)
            (A.record_assistant_message resp hist) := by
        unfold loopStep
        simp only [hres]
      rw [hstep, ih]
      rw [Function.iterate_succ_apply, hloop]

/-- Witness for C9 on the fixture adapter, whose every response produces
the same two calls: with a budget of 2, the loop returns the second
send's response unmodified. -/
theorem run_capped_returns_last_response_witness :
    run cfgEx (some regEx) adapterEx 2 0 [] =
      .ok ((loopStep cfgEx (some regEx) adapterEx)^[2] (0, [])) ∧
    runCount cfgEx (some regEx) adapterEx 2 0 [] ≤ 2 ∧
    default_max_function_loops = 5 := by
  refine run_capped_returns_last_response cfgEx (some regEx) adapterEx 2 0 []
    (fun r => by intro h; cases h) ?_
  intro r tc htc
  rcases List.mem_cons.mp htc with rfl | htc
  · exact ⟨⟨"echo", .result (.str "ok"), some "id-1"⟩, rfl⟩
  · rcases List.mem_cons.mp htc with rfl | htc
    · exact ⟨⟨"ghost", .error "Tool 'ghost' not found in registry.",
        some "id-2"⟩, rfl⟩
    · cases htc

/-- `_build_fields` fails on the first non-`self` parameter without a
description, with the `ToolValidationError` message naming it. -/
theorem build_fields_offender (tool_name : String) :
    ∀ params : List PyParam,
      (∃ p ∈ params, p.name ≠ "self" ∧ hasParamDesc p = false) →
      ∃ p, p ∈ params ∧ p.name ≠ "self" ∧ hasParamDesc p = false ∧
        build_fields tool_name params
          = .error (.validation (missing_desc_msg p.name tool_name)) := by
  intro params
  induction params with
  | nil =>
      rintro ⟨p, hp, _⟩
      cases hp
  | cons p₀ t ih =>
      rintro ⟨p, hp, hpn, hpd⟩
      by_cases hself : p₀.name = "self"
      · have hpt : p ∈ t := by
          rcases List.mem_cons.mp hp with rfl | hpt
          · exact absurd hself hpn
          · exact hpt
        obtain ⟨q, hq, hqn, hqd, hqe⟩ := ih ⟨p, hpt, hpn, hpd⟩
        refine ⟨q, List.mem_cons_of_mem _ hq, hqn, hqd, ?_⟩
        simp only [build_fields, if_pos hself]
        exact hqe
      · by_cases hpd₀ : hasParamDesc p₀
        · have hpt : p ∈ t := by
            rcases List.mem_cons.mp hp with rfl | hpt
            · rw [hpd₀] at hpd; cases hpd
            · exact hpt
          obtain ⟨q, hq, hqn, hqd, hqe⟩ := ih ⟨p, hpt, hpn, hpd⟩
          refine ⟨q, List.mem_cons_of_mem _ hq, hqn, hqd, ?_⟩
          simp only [build_fields, if_neg hself]
          have hok : ∃ ft, build_field_tuple tool_name p₀ = .ok ft := by
            unfold build_field_tuple extract_description
            cases ha : p₀.annotated with
            | none =>
                unfold hasParamDesc at hpd₀
                rw [ha] at hpd₀
                simp at hpd₀
            | some metas =>
                cases hd : firstFieldInfoDesc metas with
                | none =>
                    unfold hasParamDesc at hpd₀
                    simp only [ha] at hpd₀
                    rw [hd] at hpd₀
                    simp at hpd₀
                | some d =>
                    exact ⟨⟨some metas, d, !p₀.has_default⟩,
                      by simp [ha, hd]⟩
          obtain ⟨ft, hft⟩ := hok
          rw [hft, hqe]
          rfl
        · have hpd₀f : hasParamDesc p₀ = false := by
            revert hpd₀
            cases hasParamDesc p₀ <;> simp
          have herr : build_field_tuple tool_name p₀
              = .error (.validation (missing_desc_msg p₀.name tool_name))
              := by
            unfold build_field_tuple extract_description
            cases ha : p₀.annotated with
            | none => rfl
            | some metas =>
                cases hd : firstFieldInfoDesc metas with
                | some d =>
                    unfold hasParamDesc at hpd₀f
                    simp only [ha] at hpd₀f
                    rw [hd] at hpd₀f
                    simp at hpd₀f
                | none => simp [ha, hd]
          refine ⟨p₀, List.mem_cons_self _ _, hself, hpd₀f, ?_⟩
          simp only [build_fields, if_neg hself, herr]

/-- C5: registering a callable via auto-introspection fails with a
`ToolValidationError` naming the offending parameter whenever a formal
parameter other than `self` lacks an attached description, and the
registration call returns that error without adding any tool (the
registry mapping is assigned only after definition generation, which the
raised error aborts).  The hypothesis `hdesc` states that the earlier
docstring stage passed (an explicit description or a truthy docstring);
`post` abstracts the later schema stages, which are never reached. -/
theorem missing_param_description_fails_registration {Schema Model : Type}
    (post : List (String × FieldSpec) → Except LibError (Schema × Model))
    (reg : List (String × ToolDefn Schema Model))
    (f : PyFunc) (description : Option String)
    (hdesc : ∃ d, resolve_description f f.name description = Except.ok d)
    (hoff : ∃ p ∈ f.params, p.name ≠ "self" ∧ hasParamDesc p = false) :
    ∃ p, p ∈ f.params ∧ p.name ≠ "self" ∧ hasParamDesc p = false ∧
      register_callable post reg f description
        = .error (.validation (missing_desc_msg p.name f.name)) := by
  obtain ⟨d, hd⟩ := hdesc
  obtain ⟨q, hq, hqn, hqd, hqe⟩ := build_fields_offender f.name f.params hoff
  refine ⟨q, hq, hqn, hqd, ?_⟩
  unfold register_callable generate_tool_definition
  simp only [hd, hqe]

/-- Witness for C5: `addnums(self, a, b)` has a description on `a` but
not on `b`; registration fails naming `b` and the registry stays as it
was. -/
theorem missing_param_description_fails_registration_witness :
    ∃ p, p ∈ funcEx.params ∧ p.name ≠ "self" ∧ hasParamDesc p = false ∧
      register_callable (fun _ => Except.ok ((0 : Nat), (0 : Nat)))
        ([] : List (String × ToolDefn Nat Nat)) funcEx none
        = .error (.validation (missing_desc_msg p.name funcEx.name)) := by
  refine missing_param_description_fails_registration
    (fun _ => Except.ok ((0 : Nat), (0 : Nat))) [] funcEx none
    ⟨"Adds two numbers.", rfl⟩ ?_
  refine ⟨pBadParam, ?_, by decide, rfl⟩
  exact List.mem_cons_of_mem _ (List.mem_cons_of_mem _
    (List.mem_cons_self _ _))

/-- C3: the spec claims reference inlining is bounded by a configurable
maximum recursion depth of about 20, with resolution failing on deeper
non-cyclic schemas.  The code has no such bound: `_resolve_schema_refs`
takes no depth parameter and performs no depth accounting, and on a
non-cyclic `$ref` chain 25 definitions deep it succeeds, fully inlining
the chain. -/
theorem resolve_refs_no_depth_bound :
    chainDefs.length = 25 ∧
    resolve_schema_refs 30 deepChainSchema none
      = some (Json.obj [("type", Json.str "integer")]) :=
  ⟨rfl, rfl⟩

/-- C2 counterexample: `cycSchema` contains a true reference cycle
(`#/$defs/A` is reachable from itself), yet the cycle-detection pass
returns cleanly — the dangling top-level `$ref` makes `check` return
without visiting the `properties` subtree — so the schema stage
proceeds to inlining, and `_resolve_schema_refs` then recurses on the
cycle without terminating at any fuel (Python: `RecursionError`, not a
`ValidationError`). -/
theorem cycle_detection_misses_shadowed_cycle :
    HasRefCycle cycDefs ∧
    getEntry "$defs" cycFs = some (Json.obj cycDefs) ∧
    assert_no_recursive_refs 5 cycSchema = CheckOut.ok ∧
    (∀ inline san, schema_stage 5 cycSchema inline san =
        some (Except.ok ((inline cycSchema).bind san))) ∧
    (∀ f, resolve_schema_refs f cycSchema none = none) := by
  have hA : ∀ f,
      resolve_schema_refs f (Json.obj [("$ref", Json.str "#/$defs/A")])
        (some (Json.obj
          [("A", Json.obj [("$ref", Json.str "#/$defs/A")])])) =
      none := by
    intro f
    induction f with
    | zero => rfl
    | succ g ih =>
        simp only [resolve_schema_refs]
        simp [resolveCore, getEntry, splitSlash, splitChar,
          pyIn, hasKey, pyGetItem, ih]
  refine ⟨⟨"A", Relation.TransGen.single
      ⟨refA, rfl, OccursIn.here _ rfl⟩⟩, rfl, rfl,
    fun inline san => rfl, ?_⟩
  intro f
  cases f with
  | zero => rfl
  | succ g =>
      have h := hA g
      simp only [resolve_schema_refs]
      simp [resolveCore, resolveTail, resolveListKey, mapMO, getEntry,
        delKey, pyIn, hasKey, pyGetItem, splitSlash, splitChar,
        cycSchema, cycFs, cycDefs, localRef, refA, h]

-- String lemmas for canonical local references.

theorem splitChar_no_sep {sep : Char} :
    ∀ {l : List Char}, sep ∉ l → splitChar sep l = [l] := by
  intro l
  induction l with
  | nil => intro _; rfl
  | cons c t ih =>
      intro h
      have hc : (c == sep) = false := by
        simp only [beq_eq_false_iff_ne]
        intro hcs
        exact h (hcs ▸ List.mem_cons_self c t)
      have ht : sep ∉ t := fun hm => h (List.mem_cons_of_mem c hm)
      simp only [splitChar, hc, ih ht]
      simp

theorem localRef_data (n : String) :
    (localRef n).data =
      '#' :: '/' :: '$' :: 'd' :: 'e' :: 'f' :: 's' :: '/' :: n.data := by
  cases n
  rfl

theorem localRef_inj {a b : String} (h : localRef a = localRef b) :
    a = b := by
  have hd := congrArg String.data h
  rw [localRef_data, localRef_data] at hd
  simp only [List.cons.injEq] at hd
  cases a with
  | mk da =>
      cases b with
      | mk db =>
          simp only at hd
          simp [hd]

theorem hash_prefix_localRef (n : String) :
    "#".data.isPrefixOf (localRef n).data = true := by
  rw [localRef_data]
  rfl

theorem splitSlash_localRef {n : String} (h : '/' ∈ n.data → False) :
    splitSlash (localRef n) = ["#", "$defs", n] := by
  cases n with
  | mk da =>
      have hn : splitChar (Char.ofNat 47) da = [da] := splitChar_no_sep h
      unfold splitSlash
      rw [localRef_data]
      rw [show splitChar (Char.ofNat 47)
          ('#' :: '/' :: '$' :: 'd' :: 'e' :: 'f' :: 's' :: '/' :: da)
          = ['#'] :: ['$', 'd', 'e', 'f', 's'] ::
            splitChar (Char.ofNat 47) da from rfl]
      rw [hn]
      rfl

-- `checkSeq` and fuel-monotonicity lemmas.

theorem checkSeq_ok_mem {g : Json → List String → CheckOut} :
    ∀ {l : List Json} {p : List String}, checkSeq g l p = .ok →
      ∀ x ∈ l, g x p = .ok := by
  intro l
  induction l with
  | nil => intro p _ x hx; cases hx
  | cons a t ih =>
      intro p h x hx
      rw [checkSeq] at h
      cases ha : g a p with
      | ok =>
          cases hx with
          | head => exact ha
          | tail _ hxt => exact ih (by rwa [ha] at h) x hxt
      | err m => rw [ha] at h; cases h
      | crash => rw [ha] at h; cases h
      | spent => rw [ha] at h; cases h

theorem checkSeq_ne_spent {g : Json → List String → CheckOut} :
    ∀ {l : List Json} {p : List String}, (∀ x ∈ l, g x p ≠ .spent) →
      checkSeq g l p ≠ .spent := by
  intro l
  induction l with
  | nil => intro p _ h; cases h
  | cons a t ih =>
      intro p hall
      rw [checkSeq]
      cases ha : g a p with
      | ok => exact ih (fun x hx => hall x (List.mem_cons_of_mem a hx))
      | err m => intro h; cases h
      | crash => intro h; cases h
      | spent => exact absurd ha (hall a (List.mem_cons_self a t))

theorem checkSeq_agree {g g' : Json → List String → CheckOut}
    (hagree : ∀ x p, g x p ≠ .spent → g' x p = g x p) :
    ∀ {l : List Json} {p : List String}, checkSeq g l p ≠ .spent →
      checkSeq g' l p = checkSeq g l p := by
  intro l
  induction l with
  | nil => intro p _; rfl
  | cons a t ih =>
      intro p h
      rw [checkSeq] at h ⊢
      rw [checkSeq]
      cases ha : g a p with
      | ok =>
          rw [hagree a p (by rw [ha]; intro hc; cases hc), ha]
          rw [ha] at h
          exact ih h
      | err m => rw [hagree a p (by rw [ha]; intro hc; cases hc), ha]
      | crash => rw [hagree a p (by rw [ha]; intro hc; cases hc), ha]
      | spent => rw [ha] at h; exact absurd rfl h

theorem checkRef_agree {rec rec' : Json → List String → CheckOut}
    {d : Json}
    (hagree : ∀ x p, rec x p ≠ .spent → rec' x p = rec x p)
    {r : String} {p : List String} (h : checkRef rec d r p ≠ .spent) :
    checkRef rec' d r p = checkRef rec d r p := by
  unfold checkRef at h ⊢
  by_cases h1 : p.contains r = true
  · simp only [if_pos h1]
  · simp only [if_neg h1] at h ⊢
    by_cases h2 : "#".data.isPrefixOf r.data = true
    · simp only [if_pos h2] at h ⊢
      by_cases h3 : 3 ≤ (splitSlash r).length
      · simp only [if_pos h3] at h ⊢
        cases hpi : pyIn ((splitSlash r).getLastD "") d with
        | none => simp only [hpi]
        | some b =>
            cases b with
            | false => simp only [hpi]
            | true =>
                simp only [hpi] at h ⊢
                cases hg : pyGetItem d ((splitSlash r).getLastD "") with
                | none => simp only [hg]
                | some body =>
                    simp only [hg] at h ⊢
                    exact hagree body (r :: p) h
      · simp only [if_neg h3]
    · simp only [if_neg h2]

theorem checkF_mono {d : Json} :
    ∀ {f : Nat} {x : Json} {p : List String},
      checkF d f x p ≠ .spent → checkF d (f + 1) x p = checkF d f x p := by
  intro f
  induction f with
  | zero => intro x p h; rw [checkF] at h; exact absurd rfl h
  | succ g ih =>
      intro x p h
      rw [checkF] at h ⊢
      rw [checkF]
      cases x with
      | obj fs =>
          rw [checkNode] at h ⊢
          rw [checkNode]
          cases he : getEntry "$ref" fs with
          | some v =>
              cases v with
              | str r =>
                  simp only [he] at h ⊢
                  exact checkRef_agree (fun x p hx => ih hx) h
              | null => simp only [he]
              | bool b => simp only [he]
              | num n => simp only [he]
              | arr xs => simp only [he]
              | obj gs => simp only [he]
          | none =>
              simp only [he] at h ⊢
              exact checkSeq_agree (fun x p hx => ih hx) h
      | arr xs =>
          rw [checkNode] at h ⊢
          rw [checkNode]
          exact checkSeq_agree (fun x p hx => ih hx) h
      | null => rfl
      | bool b => rfl
      | num n => rfl
      | str s => rfl

theorem checkF_mono_le {d : Json} {f g : Nat} (hfg : f ≤ g) :
    ∀ {x : Json} {p : List String},
      checkF d f x p ≠ .spent → checkF d g x p = checkF d f x p := by
  induction g with
  | zero =>
      intro x p h
      cases Nat.le_zero.mp hfg
      rfl
  | succ g ih =>
      intro x p h
      rcases Nat.lt_or_ge f (g + 1) with hlt | hge
      · have hle : f ≤ g := Nat.lt_succ_iff.mp hlt
        have hg := ih hle h
        rw [← hg]
        exact checkF_mono (by rw [hg]; exact h)
      · have : f = g + 1 := Nat.le_antisymm hfg hge
        cases this
        rfl

-- `Oks` propagation through a canonical traversal.

theorem contains_eq_mem {p : List String} {r : String} :
    p.contains r = true ↔ r ∈ p := by
  simp [List.contains, List.elem_iff]

theorem oks_obj_value {d : Json} {fs : JEntries} {p : List String}
    (hnoref : getEntry "$ref" fs = none) {k : String} {v : Json}
    (hmem : (k, v) ∈ fs) (h : Oks d (.obj fs) p) : Oks d v p := by
  obtain ⟨f, hf⟩ := h
  cases f with
  | zero => rw [checkF] at hf; cases hf
  | succ g =>
      rw [checkF, checkNode] at hf
      simp only [hnoref] at hf
      exact ⟨g, checkSeq_ok_mem hf v (List.mem_map.mpr ⟨(k, v), hmem, rfl⟩)⟩

theorem oks_arr_mem {d : Json} {xs : List Json} {p : List String}
    {x : Json} (hmem : x ∈ xs) (h : Oks d (.arr xs) p) : Oks d x p := by
  obtain ⟨f, hf⟩ := h
  cases f with
  | zero => rw [checkF] at hf; cases hf
  | succ g =>
      rw [checkF, checkNode] at hf
      exact ⟨g, checkSeq_ok_mem hf x hmem⟩

theorem occurs_oks {defs : JEntries}
    (hB : ∀ kv ∈ defs, Canon defs kv.2) :
    ∀ {x : Json} {m : String} {p : List String},
      OccursIn (localRef m) x → Canon defs x →
      Oks (Json.obj defs) x p →
      (localRef m ∈ p → False) ∧
      ∃ body, getEntry m defs = some body ∧
        Oks (Json.obj defs) body (localRef m :: p) := by
  intro x m p hocc
  induction hocc with
  | here fs hr =>
      intro hc hoks
      cases hc with
      | ref n h1 h2 =>
          simp only [getEntry, if_pos rfl] at hr
          injection hr with hr'
          injection hr' with hr''
          have hnm : n = m := localRef_inj hr''
          subst hnm
          obtain ⟨f, hf⟩ := hoks
          cases f with
          | zero => rw [checkF] at hf; cases hf
          | succ g =>
              rw [checkF, checkNode] at hf
              simp only [getEntry, if_pos rfl, if_true, checkRef] at hf
              by_cases hcont : p.contains (localRef n) = true
              · rw [if_pos hcont] at hf; cases hf
              · rw [if_neg hcont] at hf
                rw [if_pos (hash_prefix_localRef n)] at hf
                rw [splitSlash_localRef h2] at hf
                rw [if_pos (by simp)] at hf
                rw [show (["#", "$defs", n] : List String).getLastD ""
                    = n from rfl] at hf
                simp only [pyIn, h1] at hf
                have hbody : ∃ body, getEntry n defs = some body := by
                  unfold hasKey at h1
                  exact Option.isSome_iff_exists.mp h1
                obtain ⟨body, hb⟩ := hbody
                simp only [pyGetItem, hb] at hf
                exact ⟨fun hmem => hcont (contains_eq_mem.mpr hmem),
                  body, hb, ⟨g, hf⟩⟩
      | obj fs hnoref hvals => rw [hnoref] at hr; cases hr
      | base _ _ hobj => exact absurd rfl (hobj fs)
  | inObj fs k v hmem hocc' ih =>
      intro hc hoks
      cases hc with
      | ref n h1 h2 =>
          simp only [List.mem_singleton] at hmem
          have hv : v = Json.str (localRef n) := by
            have := congrArg Prod.snd hmem
            simpa using this
          subst hv
          cases hocc'
      | obj fs hnoref hvals =>
          exact ih (hvals (k, v) hmem) (oks_obj_value hnoref hmem hoks)
      | base _ _ hobj => exact absurd rfl (hobj fs)
  | inArr xs x hmem hocc' ih =>
      intro hc hoks
      cases hc with
      | arr _ hvals => exact ih (hvals x hmem) (oks_arr_mem hmem hoks)
      | base _ harr _ => exact absurd rfl (harr xs)

theorem walk {defs : JEntries} (hB : ∀ kv ∈ defs, Canon defs kv.2) :
    ∀ {a b : String}, Relation.TransGen (RefEdge defs) a b →
      ∀ {p : List String} {bodyA : Json},
        getEntry a defs = some bodyA → Oks (Json.obj defs) bodyA p →
        ∃ q bodyB, p ⊆ q ∧ (localRef b ∈ q → False) ∧
          getEntry b defs = some bodyB ∧
          Oks (Json.obj defs) bodyB (localRef b :: q) := by
  intro a b htg
  induction htg with
  | single hab =>
      intro p bodyA hget hoks
      obtain ⟨body', hget', hocc⟩ := hab
      rw [hget] at hget'
      injection hget' with he
      subst he
      have hcanonA : Canon defs bodyA :=
        hB (a, bodyA) (getEntry_eq_some_mem hget)
      obtain ⟨hnot, bodyB, hgb, hoksb⟩ := occurs_oks hB hocc hcanonA hoks
      exact ⟨p, bodyB, List.Subset.refl p, hnot, hgb, hoksb⟩
  | tail htg' hedge ih =>
      intro p bodyA hget hoks
      obtain ⟨q, bodyB, hsub, hnotb, hgb, hoksb⟩ := ih hget hoks
      obtain ⟨body', hget', hocc⟩ := hedge
      rw [hgb] at hget'
      injection hget' with he
      subst he
      have hcanonB : Canon defs bodyB :=
        hB (_, bodyB) (getEntry_eq_some_mem hgb)
      obtain ⟨hnotc, bodyC, hgc, hoksc⟩ := occurs_oks hB hocc hcanonB hoksb
      refine ⟨_ :: q, bodyC, ?_, hnotc, hgc, hoksc⟩
      exact fun y hy => List.mem_cons_of_mem _ (hsub hy)

theorem checkSeq_goodOut {g : Json → List String → CheckOut} :
    ∀ {l : List Json} {p : List String}, (∀ x ∈ l, goodOut (g x p)) →
      goodOut (checkSeq g l p) := by
  intro l
  induction l with
  | nil => intro p _; exact Or.inl rfl
  | cons a t ih =>
      intro p hall
      rw [checkSeq]
      rcases hall a (List.mem_cons_self a t) with h | h | ⟨n, h⟩
      · rw [h]; exact ih (fun x hx => hall x (List.mem_cons_of_mem a hx))
      · rw [h]; exact Or.inr (Or.inl rfl)
      · rw [h]; exact Or.inr (Or.inr ⟨n, rfl⟩)

theorem checkF_canon_out {defs : JEntries}
    (hB : ∀ kv ∈ defs, Canon defs kv.2) :
    ∀ (f : Nat) {x : Json} {p : List String}, Canon defs x →
      goodOut (checkF (Json.obj defs) f x p) := by
  intro f
  induction f with
  | zero => intro x p _; exact Or.inr (Or.inl rfl)
  | succ g ih =>
      intro x p hc
      rw [checkF]
      cases hc with
      | ref n h1 h2 =>
          rw [checkNode]
          simp only [getEntry, if_pos rfl, if_true, checkRef]
          by_cases hcont : p.contains (localRef n) = true
          · rw [if_pos hcont]; exact Or.inr (Or.inr ⟨n, rfl⟩)
          · rw [if_neg hcont]
            rw [if_pos (hash_prefix_localRef n)]
            rw [splitSlash_localRef h2]
            rw [if_pos (by simp)]
            rw [show (["#", "$defs", n] : List String).getLastD ""
                = n from rfl]
            simp only [pyIn, h1]
            obtain ⟨body, hb⟩ : ∃ b, getEntry n defs = some b := by
              unfold hasKey at h1
              exact Option.isSome_iff_exists.mp h1
            simp only [pyGetItem, hb]
            exact ih (hB (n, body) (getEntry_eq_some_mem hb))
      | obj fs hnoref hvals =>
          rw [checkNode]
          simp only [hnoref]
          refine checkSeq_goodOut ?_
          intro v hv
          obtain ⟨kv, hkv, rfl⟩ := List.mem_map.mp hv
          exact ih (hvals kv hkv)
      | arr xs hvals =>
          rw [checkNode]
          exact checkSeq_goodOut (fun x hx => ih (hvals x hx))
      | base j harr hobj =>
          cases x with
          | obj fs => exact absurd rfl (hobj fs)
          | arr xs => exact absurd rfl (harr xs)
          | null => exact Or.inl rfl
          | bool b => exact Or.inl rfl
          | num n => exact Or.inl rfl
          | str s => exact Or.inl rfl

-- Termination of `check` on canonical schemas: each followed
-- reference adds a fresh local reference to the path, and the pool of
-- such references is bounded by the definition keys.

theorem sizeOf_val_lt {fs : JEntries} {k : String} {v : Json}
    (h : (k, v) ∈ fs) : sizeOf v < sizeOf (Json.obj fs) := by
  have h1 := List.sizeOf_lt_of_mem h
  simp at h1 ⊢
  omega

theorem sizeOf_item_lt {xs : List Json} {x : Json} (h : x ∈ xs) :
    sizeOf x < sizeOf (Json.arr xs) := by
  have h1 := List.sizeOf_lt_of_mem h
  simp at h1 ⊢
  omega

theorem filter_cons_contains_lt :
    ∀ {L : List String} {r : String} {p : List String}, r ∈ L → r ∉ p →
      (L.filter (fun s => !((r :: p).contains s))).length <
      (L.filter (fun s => !(p.contains s))).length := by
  intro L
  induction L with
  | nil => intro r p hr _; cases hr
  | cons a t ih =>
      intro r p hr hnp
      have himp : ∀ s : String, (!((r :: p).contains s)) = true →
          (!(p.contains s)) = true := by
        intro s hs
        simp only [Bool.not_eq_true'] at hs ⊢
        cases hcc : p.contains s with
        | false => rfl
        | true =>
            have hsp : s ∈ r :: p :=
              List.mem_cons_of_mem r (contains_eq_mem.mp hcc)
            rw [contains_eq_mem.mpr hsp] at hs
            cases hs
      have hmono : (t.filter (fun s => !((r :: p).contains s))).length ≤
          (t.filter (fun s => !(p.contains s))).length :=
        (List.monotone_filter_right t himp).length_le
      rw [List.filter_cons, List.filter_cons]
      by_cases hmem : a ∈ r :: p
      · have hca : (r :: p).contains a = true := contains_eq_mem.mpr hmem
        rw [if_neg (by rw [hca]; simp)]
        by_cases hmp : a ∈ p
        · have hpc : p.contains a = true := contains_eq_mem.mpr hmp
          rw [if_neg (by rw [hpc]; simp)]
          have hrt : r ∈ t := by
            cases hr with
            | head => exact absurd hmp hnp
            | tail _ h => exact h
          exact ih hrt hnp
        · have hpa : p.contains a = false := by
            cases hcc : p.contains a with
            | false => rfl
            | true => exact absurd (contains_eq_mem.mp hcc) hmp
          rw [if_pos (by rw [hpa]; rfl)]
          simp only [List.length_cons]
          omega
      · have hra : (r :: p).contains a = false := by
          cases hcc : (r :: p).contains a with
          | false => rfl
          | true => exact absurd (contains_eq_mem.mp hcc) hmem
        have hpa : p.contains a = false := by
          cases hcc : p.contains a with
          | false => rfl
          | true =>
              exact absurd (List.mem_cons_of_mem r
                (contains_eq_mem.mp hcc)) hmem
        rw [if_pos (by rw [hra]; rfl), if_pos (by rw [hpa]; rfl)]
        simp only [List.length_cons]
        have hrt : r ∈ t := by
          cases hr with
          | head => exact absurd (List.mem_cons_self _ _) hmem
          | tail _ h => exact h
        have := ih hrt hnp
        omega

theorem freeList_dec {defs : JEntries} {m : String} {p : List String}
    (h1 : hasKey m defs = true) (hnp : localRef m ∉ p) :
    (freeList defs (localRef m :: p)).length <
      (freeList defs p).length := by
  unfold freeList
  refine filter_cons_contains_lt ?_ hnp
  obtain ⟨v, hv⟩ : ∃ v, getEntry m defs = some v := by
    unfold hasKey at h1
    exact Option.isSome_iff_exists.mp h1
  exact List.mem_dedup.mpr
    (List.mem_map.mpr ⟨(m, v), getEntry_eq_some_mem hv, rfl⟩)

theorem uniform_fuel {d : Json} {p : List String} :
    ∀ {l : List Json}, (∀ x ∈ l, ∃ f, checkF d f x p ≠ .spent) →
      ∃ F, ∀ x ∈ l, checkF d F x p ≠ .spent := by
  intro l
  induction l with
  | nil => intro _; exact ⟨0, fun x hx => absurd hx (List.not_mem_nil x)⟩
  | cons a t ih =>
      intro hall
      obtain ⟨fa, hfa⟩ := hall a (List.mem_cons_self a t)
      obtain ⟨F, hF⟩ := ih (fun x hx => hall x (List.mem_cons_of_mem a hx))
      refine ⟨max fa F, ?_⟩
      intro x hx
      cases hx with
      | head =>
          rw [checkF_mono_le (Nat.le_max_left fa F) hfa]
          exact hfa
      | tail _ hxt =>
          rw [checkF_mono_le (Nat.le_max_right fa F) (hF x hxt)]
          exact hF x hxt

theorem checkF_canon_term {defs : JEntries}
    (hB : ∀ kv ∈ defs, Canon defs kv.2) :
    ∀ (k : Nat) (p : List String), (freeList defs p).length ≤ k →
      ∀ {x : Json}, Canon defs x →
        ∃ f, checkF (Json.obj defs) f x p ≠ .spent := by
  intro k
  induction k using Nat.strong_induction_on with
  | _ k ihk =>
      intro p hp
      have key : ∀ (s : Nat) (x : Json), sizeOf x ≤ s → Canon defs x →
          ∃ f, checkF (Json.obj defs) f x p ≠ .spent := by
        intro s
        induction s using Nat.strong_induction_on with
        | _ s ihs =>
            intro x hs hc
            cases hc with
            | ref n h1 h2 =>
                by_cases hcont : p.contains (localRef n) = true
                · refine ⟨1, ?_⟩
                  rw [checkF, checkNode]
                  simp only [getEntry, if_pos rfl, if_true, checkRef]
                  rw [if_pos hcont]
                  intro hcon; cases hcon
                · have hnp : localRef n ∉ p :=
                    fun hm => hcont (contains_eq_mem.mpr hm)
                  obtain ⟨body, hb⟩ : ∃ b, getEntry n defs = some b := by
                    unfold hasKey at h1
                    exact Option.isSome_iff_exists.mp h1
                  have hdec := freeList_dec h1 hnp (p := p)
                  have hcanonB : Canon defs body :=
                    hB (n, body) (getEntry_eq_some_mem hb)
                  obtain ⟨g, hg⟩ := ihk
                    (freeList defs (localRef n :: p)).length
                    (by omega) (localRef n :: p) (Nat.le_refl _) hcanonB
                  refine ⟨g + 1, ?_⟩
                  rw [checkF, checkNode]
                  simp only [getEntry, if_pos rfl, if_true, checkRef]
                  rw [if_neg hcont, if_pos (hash_prefix_localRef n),
                    splitSlash_localRef h2, if_pos (by simp),
                    show (["#", "$defs", n] : List String).getLastD ""
                      = n from rfl]
                  simp only [pyIn, h1, pyGetItem, hb]
                  exact hg
            | obj fs hnoref hvals =>
                have hch : ∀ v ∈ fs.map Prod.snd,
                    ∃ f, checkF (Json.obj defs) f v p ≠ .spent := by
                  intro v hv
                  obtain ⟨kv, hkv, rfl⟩ := List.mem_map.mp hv
                  obtain ⟨kk, vv⟩ := kv
                  have hsz : sizeOf vv < sizeOf (Json.obj fs) :=
                    sizeOf_val_lt hkv
                  exact ihs (sizeOf vv) (by omega) vv (Nat.le_refl _)
                    (hvals (kk, vv) hkv)
                obtain ⟨F, hF⟩ := uniform_fuel hch
                refine ⟨F + 1, ?_⟩
                rw [checkF, checkNode]
                simp only [hnoref]
                exact checkSeq_ne_spent hF
            | arr xs hvals =>
                have hch : ∀ v ∈ xs,
                    ∃ f, checkF (Json.obj defs) f v p ≠ .spent := by
                  intro v hv
                  have hsz : sizeOf v < sizeOf (Json.arr xs) :=
                    sizeOf_item_lt hv
                  exact ihs (sizeOf v) (by omega) v (Nat.le_refl _)
                    (hvals v hv)
                obtain ⟨F, hF⟩ := uniform_fuel hch
                refine ⟨F + 1, ?_⟩
                rw [checkF, checkNode]
                exact checkSeq_ne_spent hF
            | base j harr hobj =>
                cases x with
                | obj fs => exact absurd rfl (hobj fs)
                | arr xs => exact absurd rfl (harr xs)
                | null =>
                    refine ⟨1, fun h => ?_⟩
                    rw [show checkF (Json.obj defs) 1 Json.null p
                      = CheckOut.ok from rfl] at h
                    cases h
                | bool b =>
                    refine ⟨1, fun h => ?_⟩
                    rw [show checkF (Json.obj defs) 1 (Json.bool b) p
                      = CheckOut.ok from rfl] at h
                    cases h
                | num n =>
                    refine ⟨1, fun h => ?_⟩
                    rw [show checkF (Json.obj defs) 1 (Json.num n) p
                      = CheckOut.ok from rfl] at h
                    cases h
                | str s =>
                    refine ⟨1, fun h => ?_⟩
                    rw [show checkF (Json.obj defs) 1 (Json.str s) p
                      = CheckOut.ok from rfl] at h
                    cases h
      exact fun {x} hc => key (sizeOf x) x (Nat.le_refl _) hc

/-- C2: on canonical schemas — a root dict holding its reference
definitions under `$defs`, every referencing node the singleton
`{"$ref": "#/$defs/<name>"}` shape that the pydantic generator emits,
with slash-free definition names — any true reference cycle (a local
reference reachable from itself) makes the schema stage fail with the
`ToolValidationError` message "Recursive structure detected:
#/$defs/<name>. ...", for every inliner and sanitizer: the failure is
raised by the cycle-detection pass before reference inlining runs.  On
arbitrary schemas the guarantee fails (see the counterexample). -/
theorem cycle_detection_flags_canonical_cycles
    (defs fs₀ : JEntries)
    (hcanon : Canon defs (.obj fs₀))
    (hdefs : getEntry "$defs" fs₀ = some (.obj defs))
    (hcyc : HasRefCycle defs) :
    ∃ N n, ∀ f, N ≤ f → ∀ inline san,
      schema_stage f (Json.obj fs₀) inline san =
        some (Except.error (recMsg (localRef n))) := by
  obtain ⟨a, htg⟩ := hcyc
  have hedge0 : ∃ c, RefEdge defs a c := by
    obtain ⟨b0, hab, _⟩ := Relation.TransGen.head'_iff.mp htg
    exact ⟨b0, hab⟩
  obtain ⟨c0, bodyA, hgetA, hoccA⟩ := hedge0
  cases hcanon with
  | ref n h1 h2 =>
      simp only [getEntry] at hdefs
      split at hdefs
      · rename_i heq
        exact absurd heq (by decide)
      · cases hdefs
  | obj _ hnoref₀ hvals₀ =>
      have hdefsCanon : Canon defs (.obj defs) :=
        hvals₀ ("$defs", .obj defs) (getEntry_eq_some_mem hdefs)
      cases hdefsCanon with
      | ref n h1 h2 =>
          rw [show getEntry a [("$ref", Json.str (localRef n))]
              = if "$ref" = a then some (Json.str (localRef n))
                else none from rfl] at hgetA
          split at hgetA
          · injection hgetA with he
            subst he
            cases hoccA
          · cases hgetA
      | obj _ hnorefD hB =>
          have hnotok : ∀ f,
              checkF (Json.obj defs) f (Json.obj fs₀) [] ≠ .ok := by
            intro f hok
            have hoksDefs : Oks (Json.obj defs) (Json.obj defs) [] :=
              oks_obj_value hnoref₀ (getEntry_eq_some_mem hdefs) ⟨f, hok⟩
            have hoksA : Oks (Json.obj defs) bodyA [] :=
              oks_obj_value hnorefD (getEntry_eq_some_mem hgetA) hoksDefs
            obtain ⟨q, bodyA', hsub, hnot, hgetA', hoksA'⟩ :=
              walk hB htg hgetA hoksA
            obtain ⟨q2, bodyA'', hsub2, hnot2, hgetA'', hoksA''⟩ :=
              walk hB htg hgetA' hoksA'
            exact hnot2 (hsub2 (List.mem_cons_self _ _))
          obtain ⟨N, hN⟩ :=
            checkF_canon_term hB (freeList defs []).length []
              (Nat.le_refl _) (Canon.obj fs₀ hnoref₀ hvals₀)
          rcases checkF_canon_out hB N (Canon.obj fs₀ hnoref₀ hvals₀)
            with hok | hspent | ⟨n, herr⟩
          · exact absurd hok (hnotok N)
          · exact absurd hspent hN
          · refine ⟨N, n, ?_⟩
            intro f hf inline san
            have hres : checkF (Json.obj defs) f (Json.obj fs₀) []
                = .err (recMsg (localRef n)) := by
              rw [checkF_mono_le hf hN]
              exact herr
            have htr : truthy (Json.obj defs) = true := by
              cases defs with
              | nil => cases hgetA
              | cons kv t => rfl
            have hdefsOf : defsOf fs₀ = Json.obj defs := by
              unfold defsOf
              rw [hdefs]
              simp [htr]
            simp only [schema_stage, assert_no_recursive_refs]
            rw [hdefsOf, hres]
      | base _ _ hobjB => exact absurd rfl (hobjB defs)
  | base _ _ hobj => exact absurd rfl (hobj fs₀)

/-- Witness: the canonical self-referential schema
`{"$defs": {"A": {"$ref": "#/$defs/A"}}}` makes the schema stage fail
with the recursion-detected `ToolValidationError` at every
sufficiently large fuel, whatever inlining follows. -/
theorem cycle_detection_flags_canonical_cycles_witness :
    ∃ N n, ∀ f, N ≤ f → ∀ inline san,
      schema_stage f (Json.obj wFs) inline san =
        some (Except.error (recMsg (localRef n))) :=
  cycle_detection_flags_canonical_cycles cycDefs wFs
    (Canon.obj wFs rfl (by
      intro kv hkv
      simp only [wFs, List.mem_singleton] at hkv
      subst hkv
      exact Canon.obj cycDefs rfl (by
        intro kv2 hkv2
        simp only [cycDefs, List.mem_singleton] at hkv2
        subst hkv2
        exact Canon.ref "A" rfl (by decide))))
    rfl
    ⟨"A", Relation.TransGen.single ⟨refA, rfl, OccursIn.here _ rfl⟩⟩
